import Mathlib

/-!
Verification of the core of the `img_processing` repository (tile
registration by phase correlation, least-squares bundle adjustment, grid
row discovery, a byte-budgeted LRU tile cache, a tile compositor and a
block-mean pyramid builder).

The Python sources are shallowly embedded: pure functions become Lean
functions over exact arithmetic (`ℚ`, `ℝ`, `ℂ` standing for the floating
point used by NumPy), stateful code becomes explicit state passing, and
code that raises exceptions returns `Except`.
-/

namespace RTV

/-- A Python object handed to `TileCache` (`rt_viewer/rtviewer/cache.py`):
either a NumPy `ndarray` — carrying its `nbytes` and a tag standing for its
contents — or any other, non-array object.  This embeds the
`isinstance(tile, np.ndarray)` distinction made by the cache. -/
inductive PyObj where
  | ndarray (nbytes : ℕ) (tag : ℕ)
  | other (tag : ℕ)
deriving DecidableEq

/-- The `getsizeof` measure used by the cache: `arr.nbytes` for arrays.
Non-arrays never enter the cache, so their size is irrelevant. -/
def nbytesOf : PyObj → ℕ
  | .ndarray n _ => n
  | .other _ => 0

/-- Cache key `(fov, z, level)`, all Python ints. -/
abbrev Key := ℕ × ℕ × ℕ

/-- One cache entry.  The entry list is kept in recency order:
least-recently-used first, most-recently-used last, mirroring the order
maintained by `cachetools.LRUCache`. -/
abbrev Entry := Key × PyObj

/-- Total resident bytes (`Cache.currsize` in cachetools). -/
def currsize (l : List Entry) : ℕ := (l.map fun e => nbytesOf e.2).sum

/-- The binding of key `k`, if present (`key in self.cache` / `self.cache[key]`). -/
def lookupVal (l : List Entry) (k : Key) : Option PyObj :=
  (l.find? fun e => e.1 = k).map Prod.snd

/-- The eviction loop of `cachetools.Cache.__setitem__`:
`while self.currsize + size > maxsize: self.popitem()`, where `popitem`
removes the least-recently-used entry (the head of the recency list). -/
def evictWhile (maxsize size : ℕ) : List Entry → List Entry
  | [] => []
  | e :: rest =>
    if maxsize < currsize (e :: rest) + size then evictWhile maxsize size rest
    else e :: rest

/-- Move the binding `(k, v)` to the most-recently-used position.  Models the
`__update`/`move_to_end` step of `cachetools.LRUCache`. -/
def moveToMRU (l : List Entry) (k : Key) (v : PyObj) : List Entry :=
  (l.filter fun e => e.1 ≠ k) ++ [(k, v)]

/-- `cachetools.Cache.__setitem__` followed by the LRU `__update`: run the
eviction loop when the key is new or grows, then store the binding at the
most-recently-used position.  The caller (`TileCache`) has already rejected
values with `nbytes > maxsize`, so the cachetools `ValueError` branch for a
too-large value is unreachable here. -/
def cacheSetItem (maxsize : ℕ) (k : Key) (v : PyObj) (l : List Entry) : List Entry :=
  let size := nbytesOf v
  let l1 := match lookupVal l k with
    | none => evictWhile maxsize size l
    | some old => if nbytesOf old < size then evictWhile maxsize size l else l
  moveToMRU l1 k v

/-- The two exception classes raised by `TileCache.get` / `TileCache.put`. -/
inductive PyErr where
  | typeError
  | valueError
deriving DecidableEq

/-- The mutable state of a `TileCache`: the byte budget `max_bytes` and the
entry list of the underlying `cachetools.LRUCache` in recency order. -/
structure TileCacheModel where
  maxBytes : ℕ
  entries : List Entry
deriving DecidableEq

/-- A freshly constructed `TileCache` (`TileCache.__init__`): empty. -/
def TileCacheModel.init (maxBytes : ℕ) : TileCacheModel := ⟨maxBytes, []⟩

/-- `TileCache.put`: reject non-arrays with `TypeError`, reject a tile with
`nbytes > max_bytes` with `ValueError` — in both cases before touching the
cache — otherwise store it, evicting least-recently-used entries as needed. -/
def TileCacheModel.put (c : TileCacheModel) (k : Key) (tile : PyObj) :
    Except PyErr TileCacheModel :=
  match tile with
  | .other _ => .error .typeError
  | .ndarray n _ =>
    if c.maxBytes < n then .error .valueError
    else .ok { c with entries := cacheSetItem c.maxBytes k tile c.entries }

/-- `TileCache.get`: on a hit return the cached buffer, marking it
most-recently-used; on a miss load from the data source (under the same
lock), apply the same type and size checks as `put`, then insert.  `load`
embeds the external `DataSource.load_tile` collaborator. -/
def TileCacheModel.get (load : Key → PyObj) (c : TileCacheModel) (k : Key) :
    Except PyErr (PyObj × TileCacheModel) :=
  match lookupVal c.entries k with
  | some v => .ok (v, { c with entries := moveToMRU c.entries k v })
  | none =>
    let tile := load k
    match tile with
    | .other _ => .error .typeError
    | .ndarray n _ =>
      if c.maxBytes < n then .error .valueError
      else .ok (tile, { c with entries := cacheSetItem c.maxBytes k tile c.entries })

/-- One externally visible cache operation. -/
inductive CacheOp where
  | opGet (k : Key)
  | opPut (k : Key) (tile : PyObj)

/-- Apply one operation; a raised exception leaves the cache state unchanged
(the Python code raises before any mutation). -/
def applyOp (load : Key → PyObj) (c : TileCacheModel) : CacheOp → TileCacheModel
  | .opGet k =>
    match TileCacheModel.get load c k with
    | .ok (_, c2) => c2
    | .error _ => c
  | .opPut k t =>
    match TileCacheModel.put c k t with
    | .ok c2 => c2
    | .error _ => c

/-- Run a sequence of cache operations. -/
def runOps (load : Key → PyObj) (c : TileCacheModel) (ops : List CacheOp) : TileCacheModel :=
  ops.foldl (applyOp load) c

end RTV

namespace RTV

/-- The keys currently bound, in recency order. -/
def keysOf (l : List Entry) : List Key := l.map Prod.fst

theorem lookupVal_eq_none_of_not_mem {l : List Entry} {k : Key}
    (h : k ∉ keysOf l) : lookupVal l k = none := by
  unfold lookupVal
  rw [List.find?_eq_none.2]
  · rfl
  · intro e he
    simp only [decide_eq_true_eq]
    intro hek
    exact h (by simpa [keysOf, hek] using List.mem_map_of_mem Prod.fst he)

theorem filter_eq_self_of_not_mem {l : List Entry} {k : Key}
    (h : k ∉ keysOf l) : (l.filter fun e => e.1 ≠ k) = l := by
  rw [List.filter_eq_self]
  intro e he
  have hek : e.1 ≠ k := fun hek =>
    h (by simpa [keysOf, hek] using List.mem_map_of_mem Prod.fst he)
  simp [hek]

theorem currsize_append (l1 l2 : List Entry) :
    currsize (l1 ++ l2) = currsize l1 + currsize l2 := by
  simp [currsize]

theorem currsize_filter_split {l : List Entry} {k : Key} {v : PyObj}
    (hn : (keysOf l).Nodup) (hv : lookupVal l k = some v) :
    currsize l = currsize (l.filter fun e => e.1 ≠ k) + nbytesOf v := by
  induction l with
  | nil => simp [lookupVal] at hv
  | cons e rest ih =>
    by_cases hek : e.1 = k
    · have hrest : k ∉ keysOf rest := by
        have := hn
        simp only [keysOf, List.map_cons, List.nodup_cons] at this
        simpa [keysOf, hek] using this.1
      have hv' : v = e.2 := by
        simp [lookupVal, List.find?_cons, hek] at hv
        exact hv.symm
      have hfilter : ((e :: rest).filter fun x => x.1 ≠ k) = rest := by
        simp only [List.filter_cons]
        rw [if_neg (by simp [hek])]
        exact filter_eq_self_of_not_mem hrest
      rw [hfilter, hv']
      simp [currsize, Nat.add_comm]
    · have hn' : (keysOf rest).Nodup := by
        simpa [keysOf] using (List.nodup_cons.1 (by simpa [keysOf] using hn)).2
      have hv' : lookupVal rest k = some v := by
        simpa [lookupVal, List.find?_cons, hek] using hv
      have hfilter : ((e :: rest).filter fun x => x.1 ≠ k)
          = e :: (rest.filter fun x => x.1 ≠ k) := by
        simp only [List.filter_cons]
        rw [if_pos (by simp [hek])]
      rw [hfilter]
      have := ih hn' hv'
      simp only [currsize, List.map_cons, List.sum_cons] at *
      omega

theorem evictWhile_isSuffix (maxsize size : ℕ) (l : List Entry) :
    evictWhile maxsize size l <:+ l := by
  induction l with
  | nil => simp [evictWhile]
  | cons e rest ih =>
    unfold evictWhile
    by_cases h : maxsize < currsize (e :: rest) + size
    · rw [if_pos h]
      exact ih.trans (List.suffix_cons e rest)
    · rw [if_neg h]

theorem evictWhile_bound {maxsize size : ℕ} (hs : size ≤ maxsize) (l : List Entry) :
    currsize (evictWhile maxsize size l) + size ≤ maxsize := by
  induction l with
  | nil => simpa [evictWhile, currsize] using hs
  | cons e rest ih =>
    unfold evictWhile
    by_cases h : maxsize < currsize (e :: rest) + size
    · rw [if_pos h]; exact ih
    · rw [if_neg h]; omega

theorem evictWhile_eq_drop (maxsize size : ℕ) (l : List Entry) :
    ∃ j, evictWhile maxsize size l = l.drop j ∧
      ∀ i < j, maxsize < currsize (l.drop i) + size := by
  induction l with
  | nil => exact ⟨0, rfl, by omega⟩
  | cons e rest ih =>
    unfold evictWhile
    by_cases h : maxsize < currsize (e :: rest) + size
    · rw [if_pos h]
      obtain ⟨j, hj, hmin⟩ := ih
      refine ⟨j + 1, by simpa using hj, ?_⟩
      intro i hi
      match i with
      | 0 => simpa using h
      | i + 1 => simpa using hmin i (by omega)
    · rw [if_neg h]
      exact ⟨0, rfl, by omega⟩

theorem keysOf_sublist {l1 l2 : List Entry} (h : l1.Sublist l2) :
    (keysOf l1).Sublist (keysOf l2) := List.Sublist.map Prod.fst h

theorem currsize_sublist_le {l1 l2 : List Entry} (h : l1.Sublist l2) :
    currsize l1 ≤ currsize l2 :=
  List.Sublist.sum_le_sum (List.Sublist.map _ h) (by intro x hx; positivity)

theorem keysOf_moveToMRU_nodup {l : List Entry} {k : Key} {v : PyObj}
    (hn : (keysOf l).Nodup) : (keysOf (moveToMRU l k v)).Nodup := by
  have hsub : ((l.filter fun e => e.1 ≠ k)).Sublist l := List.filter_sublist l
  have h1 : (keysOf (l.filter fun e => e.1 ≠ k)).Nodup :=
    (keysOf_sublist hsub).nodup hn
  have h2 : k ∉ keysOf (l.filter fun e => e.1 ≠ k) := by
    intro hk
    obtain ⟨e, he, hek⟩ := List.mem_map.1 hk
    have := List.of_mem_filter he
    simp [hek] at this
  simp only [moveToMRU, keysOf, List.map_append, List.map_cons, List.map_nil]
  exact List.Nodup.append h1 (List.nodup_singleton k)
    (by simp [List.disjoint_singleton, keysOf])

/-- Well-formedness of a cache state: keys are unique and the resident
bytes respect the budget. -/
def CacheInv (c : TileCacheModel) : Prop :=
  (keysOf c.entries).Nodup ∧ currsize c.entries ≤ c.maxBytes

theorem keysOf_cacheSetItem_nodup {maxB : ℕ} {k : Key} {v : PyObj} {l : List Entry}
    (hn : (keysOf l).Nodup) : (keysOf (cacheSetItem maxB k v l)).Nodup := by
  unfold cacheSetItem
  cases hl : lookupVal l k with
  | none =>
    exact keysOf_moveToMRU_nodup
      ((keysOf_sublist (evictWhile_isSuffix maxB (nbytesOf v) l).sublist).nodup hn)
  | some old =>
    by_cases hlt : nbytesOf old < nbytesOf v
    · simp only [hlt, if_true]
      exact keysOf_moveToMRU_nodup
        ((keysOf_sublist (evictWhile_isSuffix maxB (nbytesOf v) l).sublist).nodup hn)
    · simp only [hlt, if_false]
      exact keysOf_moveToMRU_nodup hn

theorem currsize_moveToMRU (l : List Entry) (k : Key) (v : PyObj) :
    currsize (moveToMRU l k v) = currsize (l.filter fun e => e.1 ≠ k) + nbytesOf v := by
  simp [moveToMRU, currsize_append, currsize]

theorem currsize_cacheSetItem_le {maxB : ℕ} {k : Key} {v : PyObj} {l : List Entry}
    (hn : (keysOf l).Nodup) (hc : currsize l ≤ maxB) (hv : nbytesOf v ≤ maxB) :
    currsize (cacheSetItem maxB k v l) ≤ maxB := by
  unfold cacheSetItem
  have hevict : currsize (moveToMRU (evictWhile maxB (nbytesOf v) l) k v) ≤ maxB := by
    rw [currsize_moveToMRU]
    have h1 : currsize ((evictWhile maxB (nbytesOf v) l).filter fun e => e.1 ≠ k)
        ≤ currsize (evictWhile maxB (nbytesOf v) l) :=
      currsize_sublist_le (List.filter_sublist _)
    have h2 := evictWhile_bound hv l
    omega
  cases hl : lookupVal l k with
  | none => exact hevict
  | some old =>
    by_cases hlt : nbytesOf old < nbytesOf v
    · simpa [hlt] using hevict
    · simp only [hlt, if_false]
      rw [currsize_moveToMRU]
      have := currsize_filter_split hn hl
      omega

theorem cacheInv_applyOp {load : Key → PyObj} {c : TileCacheModel} {op : CacheOp}
    (h : CacheInv c) : CacheInv (applyOp load c op) := by
  obtain ⟨hn, hc⟩ := h
  cases op with
  | opGet k =>
    simp only [applyOp, TileCacheModel.get]
    cases hl : lookupVal c.entries k with
    | some v =>
      refine ⟨keysOf_moveToMRU_nodup hn, ?_⟩
      show currsize (moveToMRU c.entries k v) ≤ c.maxBytes
      rw [currsize_moveToMRU]
      have h1 := currsize_filter_split hn hl
      omega
    | none =>
      cases htile : load k with
      | other tag => exact ⟨hn, hc⟩
      | ndarray n tag =>
        by_cases hsz : c.maxBytes < n
        · simp only [hsz, if_true]
          exact ⟨hn, hc⟩
        · simp only [hsz, if_false]
          exact ⟨keysOf_cacheSetItem_nodup hn,
            currsize_cacheSetItem_le hn hc
              (by simp only [nbytesOf]; omega)⟩
  | opPut k t =>
    simp only [applyOp, TileCacheModel.put]
    cases t with
    | other tag => exact ⟨hn, hc⟩
    | ndarray n tag =>
      by_cases hsz : c.maxBytes < n
      · simp only [hsz, if_true]
        exact ⟨hn, hc⟩
      · simp only [hsz, if_false]
        exact ⟨keysOf_cacheSetItem_nodup hn,
          currsize_cacheSetItem_le hn hc
            (by simp only [nbytesOf]; omega)⟩

theorem cacheInv_runOps {load : Key → PyObj} {c : TileCacheModel} (ops : List CacheOp)
    (h : CacheInv c) : CacheInv (runOps load c ops) := by
  induction ops generalizing c with
  | nil => exact h
  | cons op rest ih => exact ih (cacheInv_applyOp h)

theorem cacheSetItem_new_key {maxB : ℕ} {k : Key} {v : PyObj} {l : List Entry}
    (hk : k ∉ keysOf l) (hv : nbytesOf v ≤ maxB) :
    ∃ j, cacheSetItem maxB k v l = l.drop j ++ [(k, v)] ∧
      (∀ i < j, maxB < currsize (l.drop i) + nbytesOf v) ∧
      currsize (l.drop j) + nbytesOf v ≤ maxB := by
  obtain ⟨j, hdrop, hmin⟩ := evictWhile_eq_drop maxB (nbytesOf v) l
  refine ⟨j, ?_, hmin, ?_⟩
  · unfold cacheSetItem
    rw [lookupVal_eq_none_of_not_mem hk]
    have hkd : k ∉ keysOf (l.drop j) := fun hmem =>
      hk (List.Sublist.mem hmem (keysOf_sublist (List.drop_sublist j l)))
    simp only [moveToMRU, hdrop]
    rw [filter_eq_self_of_not_mem hkd]
  · rw [← hdrop]
    exact evictWhile_bound hv l

theorem applyOp_maxBytes (load : Key → PyObj) (c : TileCacheModel) (op : CacheOp) :
    (applyOp load c op).maxBytes = c.maxBytes := by
  cases op with
  | opGet k =>
    simp only [applyOp, TileCacheModel.get]
    cases hl : lookupVal c.entries k with
    | some v => rfl
    | none =>
      cases htile : load k with
      | other tag => rfl
      | ndarray n tag =>
        by_cases hsz : c.maxBytes < n
        · simp [hsz]
        · simp [hsz]
  | opPut k t =>
    simp only [applyOp, TileCacheModel.put]
    cases t with
    | other tag => rfl
    | ndarray n tag =>
      by_cases hsz : c.maxBytes < n
      · simp [hsz]
      · simp [hsz]

theorem runOps_maxBytes (load : Key → PyObj) (c : TileCacheModel) (ops : List CacheOp) :
    (runOps load c ops).maxBytes = c.maxBytes := by
  induction ops generalizing c with
  | nil => rfl
  | cons op rest ih => rw [runOps, List.foldl_cons, ← runOps, ih, applyOp_maxBytes]

/-- C4.  Byte-budget invariant and LRU eviction order of `TileCache`
(`rt_viewer/rtviewer/cache.py` together with `cachetools.LRUCache`):
all sequences of `get`/`put` operations started from a fresh cache keep the
resident bytes within `max_bytes`, and inserting a new entry evicts exactly
a minimal prefix of the recency order (least-recently-used first) until the
new entry fits. -/
theorem tileCache_byte_budget_and_lru_eviction :
    (∀ (maxB : ℕ) (load : Key → PyObj) (ops : List CacheOp),
      currsize (runOps load (TileCacheModel.init maxB) ops).entries ≤ maxB) ∧
    (∀ (maxB : ℕ) (k : Key) (v : PyObj) (l : List Entry),
      k ∉ keysOf l → nbytesOf v ≤ maxB →
      ∃ j, cacheSetItem maxB k v l = l.drop j ++ [(k, v)] ∧
        (∀ i < j, maxB < currsize (l.drop i) + nbytesOf v) ∧
        currsize (l.drop j) + nbytesOf v ≤ maxB) := by
  constructor
  · intro maxB load ops
    have hInv : CacheInv (runOps load (TileCacheModel.init maxB) ops) :=
      cacheInv_runOps ops ⟨List.nodup_nil, by simp [TileCacheModel.init, currsize]⟩
    have := hInv.2
    rwa [runOps_maxBytes] at this
  · intro maxB k v l hk hv
    exact cacheSetItem_new_key hk hv

/-- Witness for C4 at a concrete input: a two-operation run stays within a
10-byte budget, and inserting a 6-byte entry into a cache holding one 8-byte
entry under a 10-byte budget evicts exactly that LRU entry. -/
theorem tileCache_byte_budget_and_lru_eviction_witness :
    currsize (runOps (fun _ => PyObj.ndarray 4 0) (TileCacheModel.init 10)
      [CacheOp.opPut (0, 0, 1) (PyObj.ndarray 8 1), CacheOp.opGet (1, 0, 1)]).entries ≤ 10 ∧
    ∃ j, cacheSetItem 10 (2, 0, 1) (PyObj.ndarray 6 5) [((0, 0, 1), PyObj.ndarray 8 1)]
        = [((0, 0, 1), PyObj.ndarray 8 1)].drop j ++ [((2, 0, 1), PyObj.ndarray 6 5)] ∧
      (∀ i < j, 10 < currsize ([((0, 0, 1), PyObj.ndarray 8 1)].drop i)
        + nbytesOf (PyObj.ndarray 6 5)) ∧
      currsize ([((0, 0, 1), PyObj.ndarray 8 1)].drop j) + nbytesOf (PyObj.ndarray 6 5) ≤ 10 :=
  ⟨tileCache_byte_budget_and_lru_eviction.1 10 (fun _ => PyObj.ndarray 4 0)
      [CacheOp.opPut (0, 0, 1) (PyObj.ndarray 8 1), CacheOp.opGet (1, 0, 1)],
   tileCache_byte_budget_and_lru_eviction.2 10 (2, 0, 1) (PyObj.ndarray 6 5)
      [((0, 0, 1), PyObj.ndarray 8 1)] (by decide) (by decide)⟩

/-- C5.  Error handling of `TileCache.put` and `TileCache.get`: a non-array
buffer raises `TypeError`, a buffer with `nbytes > max_bytes` raises
`ValueError` (also for a tile loaded inside `get`), and in every error case
the cache state is unchanged — nothing is partially stored. -/
theorem tileCache_put_get_error_handling :
    (∀ (c : TileCacheModel) (k : Key) (tag : ℕ),
      TileCacheModel.put c k (PyObj.other tag) = Except.error PyErr.typeError) ∧
    (∀ (load : Key → PyObj) (c : TileCacheModel) (k : Key) (tag : ℕ),
      applyOp load c (CacheOp.opPut k (PyObj.other tag)) = c) ∧
    (∀ (c : TileCacheModel) (k : Key) (n tag : ℕ), c.maxBytes < n →
      TileCacheModel.put c k (PyObj.ndarray n tag) = Except.error PyErr.valueError) ∧
    (∀ (load : Key → PyObj) (c : TileCacheModel) (k : Key) (n tag : ℕ), c.maxBytes < n →
      applyOp load c (CacheOp.opPut k (PyObj.ndarray n tag)) = c) ∧
    (∀ (load : Key → PyObj) (c : TileCacheModel) (k : Key) (n tag : ℕ),
      lookupVal c.entries k = none → load k = PyObj.ndarray n tag → c.maxBytes < n →
      TileCacheModel.get load c k = Except.error PyErr.valueError ∧
      applyOp load c (CacheOp.opGet k) = c) := by
  refine ⟨fun c k tag => rfl, fun load c k tag => rfl, ?_, ?_, ?_⟩
  · intro c k n tag h
    simp [TileCacheModel.put, h]
  · intro load c k n tag h
    simp [applyOp, TileCacheModel.put, h]
  · intro load c k n tag hl ht h
    constructor
    · simp [TileCacheModel.get, hl, ht, h]
    · simp [applyOp, TileCacheModel.get, hl, ht, h]

/-- Witness for C5 at concrete inputs: a 4-byte-budget cache rejects a
non-array put, a 9-byte put and a 9-byte loaded tile, each time leaving the
(empty) cache unchanged. -/
theorem tileCache_put_get_error_handling_witness :
    TileCacheModel.put (TileCacheModel.init 4) (0, 0, 1) (PyObj.other 3)
      = Except.error PyErr.typeError ∧
    applyOp (fun _ => PyObj.ndarray 9 2) (TileCacheModel.init 4)
      (CacheOp.opPut (0, 0, 1) (PyObj.other 3)) = TileCacheModel.init 4 ∧
    TileCacheModel.put (TileCacheModel.init 4) (0, 0, 1) (PyObj.ndarray 9 7)
      = Except.error PyErr.valueError ∧
    applyOp (fun _ => PyObj.ndarray 9 2) (TileCacheModel.init 4)
      (CacheOp.opPut (0, 0, 1) (PyObj.ndarray 9 7)) = TileCacheModel.init 4 ∧
    (TileCacheModel.get (fun _ => PyObj.ndarray 9 2) (TileCacheModel.init 4) (0, 0, 1)
      = Except.error PyErr.valueError ∧
     applyOp (fun _ => PyObj.ndarray 9 2) (TileCacheModel.init 4) (CacheOp.opGet (0, 0, 1))
      = TileCacheModel.init 4) :=
  ⟨tileCache_put_get_error_handling.1 (TileCacheModel.init 4) (0, 0, 1) 3,
   tileCache_put_get_error_handling.2.1 (fun _ => PyObj.ndarray 9 2)
     (TileCacheModel.init 4) (0, 0, 1) 3,
   tileCache_put_get_error_handling.2.2.1 (TileCacheModel.init 4) (0, 0, 1) 9 7 (by decide),
   tileCache_put_get_error_handling.2.2.2.1 (fun _ => PyObj.ndarray 9 2)
     (TileCacheModel.init 4) (0, 0, 1) 9 7 (by decide),
   tileCache_put_get_error_handling.2.2.2.2 (fun _ => PyObj.ndarray 9 2)
     (TileCacheModel.init 4) (0, 0, 1) 9 2 (by decide) rfl (by decide)⟩

end RTV

namespace Reg

/-- A field-of-view id (a Python int). -/
abbrev Fov := ℕ

/-- Python `sorted(fovs, key=lambda f: y_coords[f])`, the stable ascending
sort by a rational key (insertion sort is stable, like Python sort). -/
def sortedByY (y : Fov → ℚ) (fovs : List Fov) : List Fov :=
  List.insertionSort (fun a b => y a ≤ y b) fovs

/-- The row-building loop of `group_rows_by_y` in `registration.py`: walk
the y-sorted fovs, appending to the current row while the gap from the
previous tile stays within `tol`, otherwise closing the row; at the end the
non-empty current row is flushed. -/
def groupLoop (y : Fov → ℚ) (tol : ℚ) :
    List Fov → List (List Fov) → List Fov → Option ℚ → List (List Fov)
  | [], rows, current, _ => if current = [] then rows else rows ++ [current]
  | f :: rest, rows, current, prevY =>
    match prevY with
    | none => groupLoop y tol rest rows (current ++ [f]) (some (y f))
    | some py =>
      if |y f - py| ≤ tol then groupLoop y tol rest rows (current ++ [f]) (some (y f))
      else groupLoop y tol rest (rows ++ [current]) [f] (some (y f))

/-- The rows produced by the loop before the per-row x-sort. -/
def rowRuns (y : Fov → ℚ) (tol : ℚ) (s : List Fov) : List (List Fov) :=
  groupLoop y tol s [] [] none

/-- `group_rows_by_y(fovs, y_coords, tile_height_mm)` from `registration.py`:
tolerance `0.5 * tile_height`, group the y-sorted fovs into rows, then sort
each row by x (`row.sort(key=lambda f: x_coords[f])`, stable). -/
def group_rows_by_y (fovs : List Fov) (y x : Fov → ℚ) (tile_height_mm : ℚ) :
    List (List Fov) :=
  (rowRuns y (1 / 2 * tile_height_mm) (sortedByY y fovs)).map
    (fun row => List.insertionSort (fun a b => x a ≤ x b) row)

/-- The fold inside Python `min(..., key=...)`: keep the first element whose
key is strictly smaller than the best so far. -/
def minFold (key : Fov → ℚ) (best : Fov) (l : List Fov) : Fov :=
  l.foldl (fun b h => if key h < key b then h else b) best

/-- Python `min(below_row, key=lambda f: abs(x_coords[f] - x_curr))`:
`none` on an empty list (where Python would raise), otherwise the first
element attaining the minimal key. -/
def pyMinBy (key : Fov → ℚ) : List Fov → Option Fov
  | [] => none
  | g :: rest => some (minFold key g rest)

/-- The neighbor pairs contributed by one tile `f` of a row in `main` of
`registration.py`: an east pair with the next tile in the row, if any, and a
south pair with the x-closest tile of the row below, if there is a row
below. -/
def tileNeighbors (x : Fov → ℚ) (f : Fov) (restRow : List Fov)
    (belowRow : Option (List Fov)) : List (Fov × Fov) :=
  (match restRow.head? with
   | some g => [(f, g)]
   | none => []) ++
  (match belowRow with
   | some below =>
     match pyMinBy (fun g => |x g - x f|) below with
     | some bf => [(f, bf)]
     | none => []
   | none => [])

/-- All neighbor pairs contributed by one row (`below` is the next row). -/
def rowNeighbors (x : Fov → ℚ) : List Fov → Option (List Fov) → List (Fov × Fov)
  | [], _ => []
  | f :: rest, below => tileNeighbors x f rest below ++ rowNeighbors x rest below

/-- The `neighbor_pairs` list built by `main` in `registration.py` from the
rows of `group_rows_by_y`. -/
def neighborPairs (x : Fov → ℚ) : List (List Fov) → List (Fov × Fov)
  | [] => []
  | row :: rest => rowNeighbors x row rest.head? ++ neighborPairs x rest

end Reg

namespace Reg

theorem groupLoop_rows_out (y : Fov → ℚ) (tol : ℚ) :
    ∀ (s : List Fov) (rows : List (List Fov)) (current : List Fov) (py : Option ℚ),
      groupLoop y tol s rows current py = rows ++ groupLoop y tol s [] current py := by
  intro s
  induction s with
  | nil =>
    intro rows current py
    by_cases h : current = []
    · simp [groupLoop, h]
    · simp [groupLoop, h]
  | cons f rest ih =>
    intro rows current py
    cases py with
    | none =>
      simp only [groupLoop, List.nil_append]
      rw [ih]
    | some p =>
      by_cases h : |y f - p| ≤ tol
      · simp only [groupLoop, h, if_true, List.nil_append]
        rw [ih]
      · simp only [groupLoop, h, if_false, List.nil_append]
        rw [ih (rows ++ [current]), ih [current]]
        simp

theorem groupLoop_flatten (y : Fov → ℚ) (tol : ℚ) :
    ∀ (s current : List Fov) (py : Option ℚ),
      (groupLoop y tol s [] current py).flatten = current ++ s := by
  intro s
  induction s with
  | nil =>
    intro current py
    by_cases h : current = []
    · simp [groupLoop, h]
    · simp [groupLoop, h]
  | cons f rest ih =>
    intro current py
    cases py with
    | none =>
      simp only [groupLoop, List.nil_append]
      rw [ih]
      simp
    | some p =>
      by_cases h : |y f - p| ≤ tol
      · simp only [groupLoop, h, if_true, List.nil_append]
        rw [ih]
        simp
      · simp only [groupLoop, h, if_false, List.nil_append]
        rw [groupLoop_rows_out, List.flatten_append, ih]
        simp

theorem groupLoop_ne_nil (y : Fov → ℚ) (tol : ℚ) :
    ∀ (s current : List Fov) (py : Option ℚ), (current = [] → py = none) →
      ∀ r ∈ groupLoop y tol s [] current py, r ≠ [] := by
  intro s
  induction s with
  | nil =>
    intro current py _h r hr
    by_cases h : current = []
    · simp [groupLoop, h] at hr
    · simp [groupLoop, h] at hr
      rw [hr]
      exact h
  | cons f rest ih =>
    intro current py hcur r hr
    cases py with
    | none =>
      simp only [groupLoop, List.nil_append] at hr
      exact ih (current ++ [f]) _ (by simp) r hr
    | some p =>
      by_cases h : |y f - p| ≤ tol
      · simp only [groupLoop, h, if_true, List.nil_append] at hr
        exact ih (current ++ [f]) _ (by simp) r hr
      · simp only [groupLoop, h, if_false, List.nil_append] at hr
        rw [groupLoop_rows_out] at hr
        rcases List.mem_append.1 hr with hr1 | hr2
        · have hrc : r = current := by simpa using hr1
          rw [hrc]
          intro hnil
          exact Option.some_ne_none p (hcur hnil)
        · exact ih [f] _ (by simp) r hr2

theorem head_append_left {α : Type} (l1 l2 : List α) (h : l1 ≠ []) :
    (l1 ++ l2).head? = l1.head? := by
  cases l1 with
  | nil => exact absurd rfl h
  | cons a t => rfl

theorem groupLoop_chain (y : Fov → ℚ) (tol : ℚ) :
    ∀ (s current : List Fov) (py : Option ℚ),
      py = (current.getLast?).map y →
      current.Chain' (fun a b => |y b - y a| ≤ tol) →
      ∀ r ∈ groupLoop y tol s [] current py,
        r.Chain' (fun a b => |y b - y a| ≤ tol) := by
  intro s
  induction s with
  | nil =>
    intro current py _hpy hch r hr
    by_cases h : current = []
    · simp [groupLoop, h] at hr
    · simp [groupLoop, h] at hr
      rw [hr]
      exact hch
  | cons f rest ih =>
    intro current py hpy hch r hr
    cases py with
    | none =>
      have hcur : current = [] := by
        cases current with
        | nil => rfl
        | cons a t =>
          exfalso
          have hw := List.getLast?_eq_getLast (a :: t) (by simp)
          simp [hw] at hpy
      subst hcur
      simp only [groupLoop, List.nil_append] at hr
      exact ih [f] _ rfl (List.chain'_singleton f) r hr
    | some p =>
      obtain ⟨a, ha, hpa⟩ : ∃ a, current.getLast? = some a ∧ y a = p := by
        cases hlast : current.getLast? with
        | none => simp [hlast] at hpy
        | some a =>
          refine ⟨a, rfl, ?_⟩
          simp [hlast] at hpy
          exact hpy.symm
      by_cases h : |y f - p| ≤ tol
      · simp only [groupLoop, h, if_true, List.nil_append] at hr
        refine ih (current ++ [f]) _ (by simp [List.getLast?_concat]) ?_ r hr
        refine List.chain'_append.2 ⟨hch, List.chain'_singleton f, ?_⟩
        intro a2 ha2 b hb
        simp only [List.head?_cons, Option.mem_def, Option.some.injEq] at hb
        rw [ha] at ha2
        simp only [Option.mem_def, Option.some.injEq] at ha2
        rw [← hb, ← ha2, hpa]
        exact h
      · simp only [groupLoop, h, if_false, List.nil_append] at hr
        rw [groupLoop_rows_out] at hr
        rcases List.mem_append.1 hr with hr1 | hr2
        · have hrc : r = current := by simpa using hr1
          rw [hrc]; exact hch
        · exact ih [f] _ rfl (List.chain'_singleton f) r hr2

theorem groupLoop_boundary (y : Fov → ℚ) (tol : ℚ) :
    ∀ (s current : List Fov) (py : Option ℚ),
      current ≠ [] →
      py = (current.getLast?).map y →
      (groupLoop y tol s [] current py).Chain'
        (fun r1 r2 => ∀ a ∈ r1.getLast?, ∀ b ∈ r2.head?, tol < |y b - y a|) ∧
      ∃ r rs, groupLoop y tol s [] current py = r :: rs ∧ r.head? = current.head? := by
  intro s
  induction s with
  | nil =>
    intro current py hne _hpy
    constructor
    · simp [groupLoop, hne]
    · exact ⟨current, [], by simp [groupLoop, hne], rfl⟩
  | cons f rest ih =>
    intro current py hne hpy
    cases py with
    | none =>
      exfalso
      have hw := List.getLast?_eq_getLast current hne
      simp [hw] at hpy
    | some p =>
      obtain ⟨a, ha, hpa⟩ : ∃ a, current.getLast? = some a ∧ y a = p := by
        cases hlast : current.getLast? with
        | none => simp [hlast] at hpy
        | some a =>
          refine ⟨a, rfl, ?_⟩
          simp [hlast] at hpy
          exact hpy.symm
      by_cases h : |y f - p| ≤ tol
      · simp only [groupLoop, h, if_true, List.nil_append]
        obtain ⟨hchain, r, rs, heq, hhead⟩ :=
          ih (current ++ [f]) (some (y f)) (by simp) (by simp [List.getLast?_concat])
        exact ⟨hchain, r, rs, heq, by rw [hhead, head_append_left current [f] hne]⟩
      · simp only [groupLoop, h, if_false, List.nil_append]
        rw [groupLoop_rows_out]
        obtain ⟨hchain, r2, rs2, heq, hhead⟩ := ih [f] (some (y f)) (by simp) (by simp)
        rw [heq]
        constructor
        · refine List.chain'_cons.2 ⟨?_, heq ▸ hchain⟩
          intro a2 ha2 b hb
          rw [ha] at ha2
          simp only [Option.mem_def, Option.some.injEq] at ha2
          rw [hhead] at hb
          simp only [List.head?_cons, Option.mem_def, Option.some.injEq] at hb
          rw [← hb, ← ha2, hpa]
          exact lt_of_not_le h
        · exact ⟨current, r2 :: rs2, rfl, rfl⟩

theorem rowRuns_flatten (y : Fov → ℚ) (tol : ℚ) (s : List Fov) :
    (rowRuns y tol s).flatten = s := by
  simpa using groupLoop_flatten y tol s [] none

theorem rowRuns_ne_nil (y : Fov → ℚ) (tol : ℚ) (s : List Fov) :
    ∀ r ∈ rowRuns y tol s, r ≠ [] :=
  groupLoop_ne_nil y tol s [] none (fun _ => rfl)

theorem rowRuns_chain (y : Fov → ℚ) (tol : ℚ) (s : List Fov) :
    ∀ r ∈ rowRuns y tol s, r.Chain' (fun a b => |y b - y a| ≤ tol) :=
  groupLoop_chain y tol s [] none rfl List.chain'_nil

theorem rowRuns_boundary (y : Fov → ℚ) (tol : ℚ) (s : List Fov) :
    (rowRuns y tol s).Chain'
      (fun r1 r2 => ∀ a ∈ r1.getLast?, ∀ b ∈ r2.head?, tol < |y b - y a|) := by
  cases s with
  | nil => simp [rowRuns, groupLoop]
  | cons f rest =>
    have hstep : rowRuns y tol (f :: rest) = groupLoop y tol rest [] [f] (some (y f)) := by
      simp [rowRuns, groupLoop]
    rw [hstep]
    exact (groupLoop_boundary y tol rest [f] (some (y f)) (by simp) (by simp)).1

theorem minFold_spec (key : Fov → ℚ) :
    ∀ (l : List Fov) (best : Fov),
      minFold key best l ∈ best :: l ∧ key (minFold key best l) ≤ key best ∧
      ∀ g ∈ l, key (minFold key best l) ≤ key g := by
  intro l
  induction l with
  | nil => exact fun best => ⟨by simp [minFold], le_refl _, by simp⟩
  | cons h t ih =>
    intro best
    by_cases hlt : key h < key best
    · have hfold : minFold key best (h :: t) = minFold key h t := by
        simp [minFold, List.foldl_cons, hlt]
      obtain ⟨hmem, hbest, hall⟩ := ih h
      rw [hfold]
      refine ⟨?_, le_trans hbest (le_of_lt hlt), ?_⟩
      · rcases List.mem_cons.1 hmem with h1 | h2
        · exact List.mem_cons.2 (Or.inr (List.mem_cons.2 (Or.inl h1)))
        · exact List.mem_cons.2 (Or.inr (List.mem_cons.2 (Or.inr h2)))
      · intro g hg
        rcases List.mem_cons.1 hg with h1 | h2
        · rw [h1]; exact hbest
        · exact hall g h2
    · have hfold : minFold key best (h :: t) = minFold key best t := by
        simp [minFold, List.foldl_cons, hlt]
      obtain ⟨hmem, hbest, hall⟩ := ih best
      rw [hfold]
      refine ⟨?_, hbest, ?_⟩
      · rcases List.mem_cons.1 hmem with h1 | h2
        · exact List.mem_cons.2 (Or.inl h1)
        · exact List.mem_cons.2 (Or.inr (List.mem_cons.2 (Or.inr h2)))
      · intro g hg
        rcases List.mem_cons.1 hg with h1 | h2
        · rw [h1]; exact le_trans hbest (le_of_not_lt hlt)
        · exact hall g h2

theorem pyMinBy_spec (key : Fov → ℚ) (l : List Fov) (hne : l ≠ []) :
    ∃ m, pyMinBy key l = some m ∧ m ∈ l ∧ ∀ g ∈ l, key m ≤ key g := by
  cases l with
  | nil => exact absurd rfl hne
  | cons g rest =>
    obtain ⟨hmem, hbest, hall⟩ := minFold_spec key rest g
    refine ⟨minFold key g rest, rfl, hmem, ?_⟩
    intro g2 hg2
    rcases List.mem_cons.1 hg2 with h1 | h2
    · rw [h1]; exact hbest
    · exact hall g2 h2

theorem pyMinBy_mem {key : Fov → ℚ} {l : List Fov} {m : Fov}
    (h : pyMinBy key l = some m) : m ∈ l ∧ ∀ g ∈ l, key m ≤ key g := by
  cases l with
  | nil => simp [pyMinBy] at h
  | cons g rest =>
    obtain ⟨m2, heq, hmem, hall⟩ := pyMinBy_spec key (g :: rest) (by simp)
    rw [heq] at h
    have hm : m2 = m := Option.some.inj h
    rw [hm] at hmem hall
    exact ⟨hmem, hall⟩

theorem singleton_prefix_head {α : Type} (b : α) (rest : List α) :
    [b] <+: rest ↔ rest.head? = some b := by
  cases rest <;> simp [List.cons_prefix_cons, eq_comm]

theorem pair_infix_cons {a b f : Fov} {rest : List Fov} :
    [a, b] <:+: f :: rest ↔ (a = f ∧ rest.head? = some b) ∨ [a, b] <:+: rest := by
  rw [List.infix_cons_iff]
  constructor
  · rintro (hp | hi)
    · rw [List.cons_prefix_cons] at hp
      exact Or.inl ⟨hp.1, (singleton_prefix_head b rest).1 hp.2⟩
    · exact Or.inr hi
  · rintro (⟨haf, hb⟩ | hi)
    · exact Or.inl (List.cons_prefix_cons.2 ⟨haf, (singleton_prefix_head b rest).2 hb⟩)
    · exact Or.inr hi

theorem mem_tileNeighbors {x : Fov → ℚ} {f a b : Fov} {restRow : List Fov}
    {below : Option (List Fov)} :
    (a, b) ∈ tileNeighbors x f restRow below ↔
      (a = f ∧ restRow.head? = some b) ∨
      (a = f ∧ ∃ br, below = some br ∧ pyMinBy (fun g => |x g - x f|) br = some b) := by
  cases hh : restRow.head? with
  | none =>
    cases below with
    | none => simp [tileNeighbors, hh]
    | some br =>
      cases hmin : pyMinBy (fun g => |x g - x f|) br with
      | none => simp [tileNeighbors, hh, hmin]
      | some bf => simp [tileNeighbors, hh, hmin, Prod.ext_iff, eq_comm]
  | some g =>
    cases below with
    | none => simp [tileNeighbors, hh, Prod.ext_iff, eq_comm]
    | some br =>
      cases hmin : pyMinBy (fun g2 => |x g2 - x f|) br with
      | none => simp [tileNeighbors, hh, hmin, Prod.ext_iff, eq_comm]
      | some bf => simp [tileNeighbors, hh, hmin, Prod.ext_iff, eq_comm]

theorem mem_rowNeighbors {x : Fov → ℚ} {a b : Fov} :
    ∀ {row : List Fov} {below : Option (List Fov)},
    ((a, b) ∈ rowNeighbors x row below ↔
      ([a, b] <:+: row) ∨
      (a ∈ row ∧ ∃ br, below = some br ∧
        pyMinBy (fun g => |x g - x a|) br = some b)) := by
  intro row
  induction row with
  | nil => simp [rowNeighbors, List.infix_nil]
  | cons f rest ih =>
    intro below
    simp only [rowNeighbors, List.mem_append, mem_tileNeighbors, ih]
    constructor
    · rintro ((⟨haf, hb⟩ | ⟨haf, br, hbr, hmin⟩) | h | ⟨ha, br, hbr, hmin⟩)
      · exact Or.inl (pair_infix_cons.2 (Or.inl ⟨haf, hb⟩))
      · subst haf
        exact Or.inr ⟨List.mem_cons_self a rest, br, hbr, hmin⟩
      · exact Or.inl (pair_infix_cons.2 (Or.inr h))
      · exact Or.inr ⟨List.mem_cons.2 (Or.inr ha), br, hbr, hmin⟩
    · rintro (hinf | ⟨ha, br, hbr, hmin⟩)
      · rcases pair_infix_cons.1 hinf with ⟨haf, hb⟩ | h
        · exact Or.inl (Or.inl ⟨haf, hb⟩)
        · exact Or.inr (Or.inl h)
      · rcases List.mem_cons.1 ha with haf | ha2
        · subst haf
          exact Or.inl (Or.inr ⟨rfl, br, hbr, hmin⟩)
        · exact Or.inr (Or.inr ⟨ha2, br, hbr, hmin⟩)

theorem mem_neighborPairs {x : Fov → ℚ} {a b : Fov} :
    ∀ {rows : List (List Fov)},
    ((a, b) ∈ neighborPairs x rows ↔
      (∃ (i : ℕ) (r : List Fov), rows[i]? = some r ∧ [a, b] <:+: r) ∨
      (∃ (i : ℕ) (r r2 : List Fov), rows[i]? = some r ∧ rows[i + 1]? = some r2 ∧ a ∈ r ∧
        pyMinBy (fun g => |x g - x a|) r2 = some b)) := by
  intro rows
  induction rows with
  | nil => simp [neighborPairs]
  | cons row rest ih =>
    simp only [neighborPairs, List.mem_append, mem_rowNeighbors, ih]
    constructor
    · rintro ((hinf | ⟨ha, br, hbr, hmin⟩) | (⟨i, r, hr, hinf⟩ | ⟨i, r, r2, hr, hr2, ha, hmin⟩))
      · exact Or.inl ⟨0, row, by simp, hinf⟩
      · refine Or.inr ⟨0, row, br, by simp, ?_, ha, hmin⟩
        rw [List.getElem?_cons_succ, ← List.head?_eq_getElem?]
        exact hbr
      · exact Or.inl ⟨i + 1, r, by simpa using hr, hinf⟩
      · exact Or.inr ⟨i + 1, r, r2, by simpa using hr, by simpa using hr2, ha, hmin⟩
    · rintro (⟨i, r, hr, hinf⟩ | ⟨i, r, r2, hr, hr2, ha, hmin⟩)
      · match i with
        | 0 =>
          rw [List.getElem?_cons_zero] at hr
          exact Or.inl (Or.inl (by rwa [← Option.some.inj hr] at hinf))
        | i + 1 =>
          rw [List.getElem?_cons_succ] at hr
          exact Or.inr (Or.inl ⟨i, r, hr, hinf⟩)
      · match i with
        | 0 =>
          rw [List.getElem?_cons_zero] at hr
          rw [List.getElem?_cons_succ, ← List.head?_eq_getElem?] at hr2
          exact Or.inl (Or.inr ⟨by rwa [← Option.some.inj hr] at ha, r2, hr2, hmin⟩)
        | i + 1 =>
          rw [List.getElem?_cons_succ] at hr
          rw [List.getElem?_cons_succ] at hr2
          exact Or.inr (Or.inr ⟨i, r, r2, hr, hr2, ha, hmin⟩)

theorem groupRows_ne_nil (fovs : List Fov) (y x : Fov → ℚ) (th : ℚ) :
    ∀ r ∈ group_rows_by_y fovs y x th, r ≠ [] := by
  intro r hr
  obtain ⟨r0, hr0, hreq⟩ := List.mem_map.1 hr
  have hr0ne : r0 ≠ [] := rowRuns_ne_nil y (1 / 2 * th) (sortedByY y fovs) r0 hr0
  intro hnil
  have hperm := List.perm_insertionSort (fun a b => x a ≤ x b) r0
  rw [hreq, hnil] at hperm
  exact hr0ne hperm.nil_eq.symm

theorem southPair_exists (fovs : List Fov) (y x : Fov → ℚ) (th : ℚ)
    (i : ℕ) (r r2 : List Fov) (a : Fov)
    (hr : (group_rows_by_y fovs y x th)[i]? = some r)
    (hr2 : (group_rows_by_y fovs y x th)[i + 1]? = some r2) (ha : a ∈ r) :
    ∃ b, (a, b) ∈ neighborPairs x (group_rows_by_y fovs y x th) ∧ b ∈ r2 ∧
      ∀ g ∈ r2, |x b - x a| ≤ |x g - x a| := by
  have hr2mem : r2 ∈ group_rows_by_y fovs y x th := by
    obtain ⟨hlt, hget⟩ := List.getElem?_eq_some.1 hr2
    exact hget ▸ List.getElem_mem hlt
  have hr2ne : r2 ≠ [] := groupRows_ne_nil fovs y x th r2 hr2mem
  obtain ⟨m, hmin, hmem, hall⟩ := pyMinBy_spec (fun g => |x g - x a|) r2 hr2ne
  exact ⟨m, mem_neighborPairs.2 (Or.inr ⟨i, r, r2, hr, hr2, ha, hmin⟩), hmem, hall⟩

/-- C6.  Grid indexing (`group_rows_by_y` and the neighbor-pair loop of
`main` in `registration.py`): the tiles are walked in ascending-y order and
partitioned into non-empty rows, a new row starting exactly when the y-gap
from the previous tile exceeds `0.5 * tile_height`; each row is then sorted
by x; the neighbor pairs are exactly the east pairs (adjacent within a row)
and the south pairs (each tile of a non-last row paired with the x-closest
tile of the next row), and every tile of a non-last row has such a south
pair. -/
theorem gridIndexer_rows_and_edges (fovs : List Fov) (y x : Fov → ℚ) (th : ℚ) :
    (sortedByY y fovs).Perm fovs ∧
    (sortedByY y fovs).Sorted (fun a b => y a ≤ y b) ∧
    (rowRuns y (1 / 2 * th) (sortedByY y fovs)).flatten = sortedByY y fovs ∧
    (∀ r ∈ rowRuns y (1 / 2 * th) (sortedByY y fovs), r ≠ []) ∧
    (∀ r ∈ rowRuns y (1 / 2 * th) (sortedByY y fovs),
      r.Chain' (fun a b => |y b - y a| ≤ 1 / 2 * th)) ∧
    (rowRuns y (1 / 2 * th) (sortedByY y fovs)).Chain'
      (fun r1 r2 => ∀ a ∈ r1.getLast?, ∀ b ∈ r2.head?, 1 / 2 * th < |y b - y a|) ∧
    group_rows_by_y fovs y x th
      = (rowRuns y (1 / 2 * th) (sortedByY y fovs)).map
          (fun row => List.insertionSort (fun a b => x a ≤ x b) row) ∧
    (∀ r ∈ group_rows_by_y fovs y x th,
      r.Sorted (fun a b => x a ≤ x b) ∧
      ∃ r0 ∈ rowRuns y (1 / 2 * th) (sortedByY y fovs), r.Perm r0) ∧
    (∀ a b : Fov, (a, b) ∈ neighborPairs x (group_rows_by_y fovs y x th) ↔
      (∃ (i : ℕ) (r : List Fov), (group_rows_by_y fovs y x th)[i]? = some r ∧
        [a, b] <:+: r) ∨
      (∃ (i : ℕ) (r r2 : List Fov), (group_rows_by_y fovs y x th)[i]? = some r ∧
        (group_rows_by_y fovs y x th)[i + 1]? = some r2 ∧ a ∈ r ∧
        pyMinBy (fun g => |x g - x a|) r2 = some b)) ∧
    (∀ (i : ℕ) (r r2 : List Fov) (a : Fov),
      (group_rows_by_y fovs y x th)[i]? = some r →
      (group_rows_by_y fovs y x th)[i + 1]? = some r2 → a ∈ r →
      ∃ b, (a, b) ∈ neighborPairs x (group_rows_by_y fovs y x th) ∧ b ∈ r2 ∧
        ∀ g ∈ r2, |x b - x a| ≤ |x g - x a|) := by
  refine ⟨List.perm_insertionSort _ _, ?_, rowRuns_flatten _ _ _, rowRuns_ne_nil _ _ _,
    rowRuns_chain _ _ _, rowRuns_boundary _ _ _, rfl, ?_, fun a b => mem_neighborPairs, ?_⟩
  · haveI : IsTotal Fov (fun a b => y a ≤ y b) := ⟨fun a b => le_total (y a) (y b)⟩
    haveI : IsTrans Fov (fun a b => y a ≤ y b) := ⟨fun a b c hab hbc => le_trans hab hbc⟩
    exact List.sorted_insertionSort _ _
  · intro r hr
    obtain ⟨r0, hr0, hreq⟩ := List.mem_map.1 hr
    constructor
    · haveI : IsTotal Fov (fun a b => x a ≤ x b) := ⟨fun a b => le_total (x a) (x b)⟩
      haveI : IsTrans Fov (fun a b => x a ≤ x b) := ⟨fun a b c hab hbc => le_trans hab hbc⟩
      rw [← hreq]
      exact List.sorted_insertionSort _ _
    · exact ⟨r0, hr0, hreq ▸ List.perm_insertionSort _ r0⟩
  · exact southPair_exists fovs y x th

/-- Witness for C6 at a concrete 2-by-2 grid: tile 0 of the first row gets a
south pair with the x-closest tile of the second row. -/
theorem gridIndexer_rows_and_edges_witness :
    ∃ b, (0, b) ∈ neighborPairs (fun f => if f = 1 ∨ f = 3 then (1 : ℚ) else 0)
        (group_rows_by_y [0, 1, 2, 3] (fun f => if f ≤ 1 then (0 : ℚ) else 1)
          (fun f => if f = 1 ∨ f = 3 then (1 : ℚ) else 0) 1) ∧
      b ∈ [2, 3] ∧
      ∀ g ∈ [2, 3],
        |(if b = 1 ∨ b = 3 then (1 : ℚ) else 0) - (if (0 : ℕ) = 1 ∨ (0 : ℕ) = 3 then (1 : ℚ) else 0)|
          ≤ |(if g = 1 ∨ g = 3 then (1 : ℚ) else 0) - (if (0 : ℕ) = 1 ∨ (0 : ℕ) = 3 then (1 : ℚ) else 0)| :=
  (gridIndexer_rows_and_edges [0, 1, 2, 3] (fun f => if f ≤ 1 then (0 : ℚ) else 1)
    (fun f => if f = 1 ∨ f = 3 then (1 : ℚ) else 0) 1).2.2.2.2.2.2.2.2.2
    0 [0, 1] [2, 3] 0
    (by norm_num [group_rows_by_y, rowRuns, groupLoop, sortedByY,
      List.insertionSort, List.orderedInsert, List.cons_ne_nil])
    (by norm_num [group_rows_by_y, rowRuns, groupLoop, sortedByY,
      List.insertionSort, List.orderedInsert, List.cons_ne_nil])
    (by decide)

/-- Undirected adjacency induced by the neighbor-pair list: the residual
rows of the bundle adjustment constrain a pair in both directions. -/
def Adj (pairs : List (Fov × Fov)) (a b : Fov) : Prop :=
  (a, b) ∈ pairs ∨ (b, a) ∈ pairs

theorem adj_symm (pairs : List (Fov × Fov)) : Symmetric (Adj pairs) :=
  fun _ _ h => h.symm

theorem reach_head {R : Fov → Fov → Prop} :
    ∀ (t : List Fov) (c : Fov), (c :: t).Chain' R →
      ∀ b ∈ c :: t, Relation.ReflTransGen R c b := by
  intro t
  induction t with
  | nil =>
    intro c _ b hb
    rw [List.mem_singleton.1 hb]
  | cons d t2 ih =>
    intro c hch b hb
    rcases List.mem_cons.1 hb with hbc | hbt
    · rw [hbc]
    · have hcd : R c d := (List.chain'_cons.1 hch).1
      have hch2 : (d :: t2).Chain' R := (List.chain'_cons.1 hch).2
      exact Relation.ReflTransGen.head hcd (ih d hch2 b hbt)

theorem reach_of_chain {R : Fov → Fov → Prop} (hsym : Symmetric R) (l : List Fov)
    (hch : l.Chain' R) : ∀ a ∈ l, ∀ b ∈ l, Relation.ReflTransGen R a b := by
  cases l with
  | nil => intro a ha; exact absurd ha (by simp)
  | cons c t =>
    intro a ha b hb
    exact (Relation.ReflTransGen.symmetric hsym (reach_head t c hch a ha)).trans
      (reach_head t c hch b hb)

theorem chain'_of_infix_pairs {R : Fov → Fov → Prop} :
    ∀ (l : List Fov), (∀ u v, [u, v] <:+: l → R u v) → l.Chain' R := by
  intro l
  induction l with
  | nil => exact fun _ => List.chain'_nil
  | cons u t ih =>
    intro h
    cases t with
    | nil => exact List.chain'_singleton u
    | cons v t2 =>
      refine List.chain'_cons.2 ⟨?_, ih fun u2 v2 hinf => h u2 v2 (List.infix_cons hinf)⟩
      exact h u v (List.IsPrefix.isInfix ⟨t2, rfl⟩)

theorem row_chain_adj (fovs : List Fov) (y x : Fov → ℚ) (th : ℚ) (i : ℕ) (r : List Fov)
    (hr : (group_rows_by_y fovs y x th)[i]? = some r) :
    r.Chain' (Adj (neighborPairs x (group_rows_by_y fovs y x th))) :=
  chain'_of_infix_pairs r
    (fun _ _ hinf => Or.inl (mem_neighborPairs.2 (Or.inl ⟨i, r, hr, hinf⟩)))

theorem mem_fovs_row (fovs : List Fov) (y x : Fov → ℚ) (th : ℚ) (f : Fov) (hf : f ∈ fovs) :
    ∃ (i : ℕ) (r : List Fov), (group_rows_by_y fovs y x th)[i]? = some r ∧ f ∈ r := by
  have h1 : f ∈ sortedByY y fovs := (List.perm_insertionSort _ fovs).mem_iff.2 hf
  have h2 : f ∈ (rowRuns y (1 / 2 * th) (sortedByY y fovs)).flatten := by
    rw [rowRuns_flatten]; exact h1
  obtain ⟨run, hrun, hfr⟩ := List.mem_flatten.1 h2
  obtain ⟨i, hi⟩ := List.mem_iff_getElem?.1 hrun
  refine ⟨i, List.insertionSort (fun a b => x a ≤ x b) run, ?_, ?_⟩
  · rw [group_rows_by_y, List.getElem?_map, hi]; rfl
  · exact (List.perm_insertionSort _ run).mem_iff.2 hfr

/-- C10.  The neighbor graph built by the batch pipeline is connected: for a
non-empty tile set, every tile is reachable from the anchor tile
`fovs[0]` along east/south edges taken as undirected constraints.  Row
clustering partitions the tiles into non-empty rows, east pairs chain each
row, and every tile of a non-last row has a south pair into the next row. -/
theorem neighborGraph_connected (fovs : List Fov) (y x : Fov → ℚ) (th : ℚ)
    (hne : fovs ≠ []) (f : Fov) (hf : f ∈ fovs) :
    Relation.ReflTransGen (Adj (neighborPairs x (group_rows_by_y fovs y x th)))
      (fovs.head hne) f := by
  obtain ⟨i0, r0, hr0, hf0⟩ := mem_fovs_row fovs y x th (fovs.head hne) (fovs.head_mem hne)
  have hlen0 : 0 < (group_rows_by_y fovs y x th).length := by
    obtain ⟨hlt, _⟩ := List.getElem?_eq_some.1 hr0
    omega
  have hrow0 : (group_rows_by_y fovs y x th)[0]?
      = some ((group_rows_by_y fovs y x th)[0]) :=
    List.getElem?_eq_some.2 ⟨hlen0, rfl⟩
  have hrow0ne : (group_rows_by_y fovs y x th)[0] ≠ [] :=
    groupRows_ne_nil fovs y x th _ (List.getElem_mem hlen0)
  have key : ∀ (i : ℕ) (r : List Fov), (group_rows_by_y fovs y x th)[i]? = some r →
      ∀ a ∈ r, Relation.ReflTransGen
        (Adj (neighborPairs x (group_rows_by_y fovs y x th)))
        (((group_rows_by_y fovs y x th)[0]).head hrow0ne) a := by
    intro i
    induction i with
    | zero =>
      intro r hr a ha
      have hr00 : r = (group_rows_by_y fovs y x th)[0] := by
        rw [hrow0] at hr
        exact (Option.some.inj hr).symm
      rw [hr00] at ha
      exact reach_of_chain (adj_symm _) _ (row_chain_adj fovs y x th 0 _ hrow0)
        _ (List.head_mem hrow0ne) a ha
    | succ i ih =>
      intro r hr a ha
      have hlt : i < (group_rows_by_y fovs y x th).length := by
        obtain ⟨hlt2, _⟩ := List.getElem?_eq_some.1 hr
        omega
      have hprev : (group_rows_by_y fovs y x th)[i]?
          = some ((group_rows_by_y fovs y x th)[i]) :=
        List.getElem?_eq_some.2 ⟨hlt, rfl⟩
      have hprevne : (group_rows_by_y fovs y x th)[i] ≠ [] :=
        groupRows_ne_nil fovs y x th _ (List.getElem_mem hlt)
      obtain ⟨b, hpair, hb, _⟩ := southPair_exists fovs y x th i _ r
        (((group_rows_by_y fovs y x th)[i]).head hprevne) hprev hr
        (List.head_mem hprevne)
      refine ((ih _ hprev _ (List.head_mem hprevne)).tail (Or.inl hpair)).trans ?_
      exact reach_of_chain (adj_symm _) r (row_chain_adj fovs y x th (i + 1) r hr) b hb a ha
  obtain ⟨j, rj, hrj, hfj⟩ := mem_fovs_row fovs y x th f hf
  exact (Relation.ReflTransGen.symmetric (adj_symm _) (key i0 r0 hr0 _ hf0)).trans
    (key j rj hrj f hfj)

/-- Witness for C10 at a concrete 2-by-2 grid: tile 3 is reachable from the
anchor tile 0. -/
theorem neighborGraph_connected_witness :
    Relation.ReflTransGen
      (Adj (neighborPairs (fun f => if f = 1 ∨ f = 3 then (1 : ℚ) else 0)
        (group_rows_by_y [0, 1, 2, 3] (fun f => if f ≤ 1 then (0 : ℚ) else 1)
          (fun f => if f = 1 ∨ f = 3 then (1 : ℚ) else 0) 1)))
      (([0, 1, 2, 3] : List Fov).head (by decide)) 3 :=
  neighborGraph_connected [0, 1, 2, 3] (fun f => if f ≤ 1 then (0 : ℚ) else 1)
    (fun f => if f = 1 ∨ f = 3 then (1 : ℚ) else 0) 1 (by decide) 3 (by decide)

/-- One measured pairwise shift along one axis, as assembled by `main` in
`registration.py`: tile indices `i`, `j` (via `idx_map`) and the measured
shift `dpx` in pixels from `phase_correlation` (the x- and y-systems have
the same shape and are solved independently). -/
structure EdgeMeas (N : ℕ) where
  i : Fin N
  j : Fin N
  dpx : ℝ

/-- One least-squares residual along one axis: the row
`row[i] = -1, row[j] = 1` with right-hand side
`dpx * pixel_size - (nominal[j] - nominal[i])`, evaluated at a candidate
correction vector `c`. -/
def residual {N : ℕ} (psize : ℝ) (nominal : Fin N → ℝ) (e : EdgeMeas N)
    (c : Fin N → ℝ) : ℝ :=
  c e.j - c e.i - (e.dpx * psize - (nominal e.j - nominal e.i))

/-- The squared-residual objective of the assembled system `A c ≈ b`:
one row per edge plus the anchor row `c anchor = 0` appended by `main`. -/
def lstsqObjective {N : ℕ} (edges : List (EdgeMeas N)) (psize : ℝ)
    (nominal : Fin N → ℝ) (anchor : Fin N) (c : Fin N → ℝ) : ℝ :=
  (edges.map fun e => (residual psize nominal e c) ^ 2).sum + (c anchor) ^ 2

/-- The contract of `np.linalg.lstsq` (SVD-based, `rcond=None`): the
returned vector minimises the squared residual, and among all minimisers it
has minimal Euclidean norm.  `lstsq` is an external library collaborator,
so it is embedded by this documented property rather than by an algorithm. -/
def IsLstsqMinNormSol {N : ℕ} (edges : List (EdgeMeas N)) (psize : ℝ)
    (nominal : Fin N → ℝ) (anchor : Fin N) (c : Fin N → ℝ) : Prop :=
  (∀ d, lstsqObjective edges psize nominal anchor c
    ≤ lstsqObjective edges psize nominal anchor d) ∧
  (∀ d, lstsqObjective edges psize nominal anchor d
      = lstsqObjective edges psize nominal anchor c →
    ∑ i, (c i) ^ 2 ≤ ∑ i, (d i) ^ 2)

theorem lstsqObjective_nonneg {N : ℕ} (edges : List (EdgeMeas N)) (psize : ℝ)
    (nominal : Fin N → ℝ) (anchor : Fin N) (c : Fin N → ℝ) :
    0 ≤ lstsqObjective edges psize nominal anchor c := by
  have h1 : (0 : ℝ) ≤ (edges.map fun e => (residual psize nominal e c) ^ 2).sum := by
    apply List.sum_nonneg
    intro t ht
    obtain ⟨e, _, rfl⟩ := List.mem_map.1 ht
    exact sq_nonneg _
  have h2 : (0 : ℝ) ≤ (c anchor) ^ 2 := sq_nonneg _
  unfold lstsqObjective
  linarith

theorem lstsqObjective_zero_of_consistent {N : ℕ} (edges : List (EdgeMeas N))
    (psize : ℝ) (nominal : Fin N → ℝ) (anchor : Fin N)
    (hcons : ∀ e ∈ edges, e.dpx * psize = nominal e.j - nominal e.i) :
    lstsqObjective edges psize nominal anchor (fun _ => 0) = 0 := by
  unfold lstsqObjective
  have h1 : (edges.map fun e => (residual psize nominal e (fun _ => 0)) ^ 2).sum = 0 := by
    apply List.sum_eq_zero
    intro t ht
    obtain ⟨e, he, rfl⟩ := List.mem_map.1 ht
    have := hcons e he
    unfold residual
    rw [this]
    ring
  rw [h1]
  ring

/-- C2.  Bundle adjustment on a consistent, noise-free edge set (`main` in
`registration.py`): when every measured shift converted to mm exactly equals
the nominal stage spacing, any minimum-norm least-squares solution of the
per-edge difference rows plus the anchor row is the zero correction, so
every output global position `nominal + correction` equals the nominal
position. -/
theorem bundleAdjust_consistent_zero {N : ℕ} (edges : List (EdgeMeas N)) (psize : ℝ)
    (nominal : Fin N → ℝ) (anchor : Fin N) (c : Fin N → ℝ)
    (hcons : ∀ e ∈ edges, e.dpx * psize = nominal e.j - nominal e.i)
    (hsol : IsLstsqMinNormSol edges psize nominal anchor c) :
    (∀ i, c i = 0) ∧ ∀ i, nominal i + c i = nominal i := by
  have hzero := lstsqObjective_zero_of_consistent edges psize nominal anchor hcons
  have hmin : ∑ i, (c i) ^ 2 ≤ ∑ i : Fin N, ((fun _ => (0 : ℝ)) i) ^ 2 := by
    apply hsol.2
    apply le_antisymm
    · rw [hzero]
      exact lstsqObjective_nonneg edges psize nominal anchor c
    · exact hsol.1 (fun _ => 0)
  have hsumzero : ∑ i, (c i) ^ 2 ≤ 0 := by simpa using hmin
  have hall : ∀ i, c i = 0 := by
    intro i
    have heq : ∑ i, (c i) ^ 2 = 0 :=
      le_antisymm hsumzero (Finset.sum_nonneg fun i _ => sq_nonneg (c i))
    have := (Finset.sum_eq_zero_iff_of_nonneg fun i _ => sq_nonneg (c i)).1 heq
      i (Finset.mem_univ i)
    exact pow_eq_zero_iff (by omega) |>.1 this
  exact ⟨hall, fun i => by rw [hall i, add_zero]⟩

/-- Witness for C2 at a concrete input: two tiles 1 mm apart, one edge whose
2-pixel shift at 0.5 mm/px exactly matches the spacing; the zero vector is a
minimum-norm least-squares solution and the corrections are zero. -/
theorem bundleAdjust_consistent_zero_witness :
    (∀ i : Fin 2, (fun _ : Fin 2 => (0 : ℝ)) i = 0) ∧
    ∀ i : Fin 2, (fun k : Fin 2 => (k : ℝ)) i + (fun _ : Fin 2 => (0 : ℝ)) i
      = (fun k : Fin 2 => (k : ℝ)) i :=
  bundleAdjust_consistent_zero [⟨0, 1, 2⟩] (1 / 2) (fun k => (k : ℝ)) 0 (fun _ => 0)
    (by
      intro e he
      rw [List.mem_singleton.1 he]
      norm_num)
    (by
      constructor
      · intro d
        rw [lstsqObjective_zero_of_consistent [⟨0, 1, 2⟩] (1 / 2) (fun k => (k : ℝ)) 0
          (by
            intro e he
            rw [List.mem_singleton.1 he]
            norm_num)]
        exact lstsqObjective_nonneg _ _ _ _ d
      · intro d _
        have : ∑ i : Fin 2, ((fun _ : Fin 2 => (0 : ℝ)) i) ^ 2 = 0 := by simp
        rw [this]
        exact Finset.sum_nonneg fun i _ => sq_nonneg (d i))

end Reg

namespace RTV

/-- A 2D image with explicit dimensions; entries outside the bounds are
irrelevant.  Pixel values are exact rationals standing for the float values
of the NumPy/Dask arrays. -/
structure Mat where
  H : ℕ
  W : ℕ
  px : ℕ → ℕ → ℚ

/-- Block-mean downsampling with trimmed remainder: embeds
`da.coarsen(np.mean, base, {0: factor, 1: factor}, trim_excess=True)` used
by `PyramidBuilder.build_levels` (`rt_viewer/rtviewer/pyramid.py`).  The
Dask collaborator is embedded by its documented semantics: partition into
`factor x factor` blocks, replace each block by its mean, and drop rows and
columns that do not fill a complete block. -/
def coarsenMean (factor : ℕ) (base : Mat) : Mat :=
  { H := base.H / factor
    W := base.W / factor
    px := fun i j =>
      (∑ a ∈ Finset.range factor, ∑ b ∈ Finset.range factor,
        base.px (i * factor + a) (j * factor + b)) / ((factor : ℚ) * factor) }

/-- `PyramidBuilder.build_levels`: for each configured factor, keep the base
overview when `factor <= 1`, otherwise block-mean downsample it. -/
def build_levels (base : Mat) (zoom_levels : List ℕ) : List (ℕ × Mat) :=
  zoom_levels.map fun factor => (factor, if factor ≤ 1 then base else coarsenMean factor base)

/-- C8.  `PyramidBuilder.build_levels` returns the base unchanged for
`factor <= 1` and the trimmed block-mean matrix for `factor > 1`; on a 4x4
base, factor 2 gives the 2x2 matrix of 2x2 block means and factor 4 a
single cell holding the global mean. -/
theorem pyramidBuilder_block_mean :
    (∀ (base : Mat) (zs : List ℕ) (f : ℕ) (M : Mat), (f, M) ∈ build_levels base zs →
      (f ≤ 1 → M = base) ∧
      (1 < f → M.H = base.H / f ∧ M.W = base.W / f ∧ ∀ i j, M.px i j
        = (∑ a ∈ Finset.range f, ∑ b ∈ Finset.range f,
            base.px (i * f + a) (j * f + b)) / ((f : ℚ) * f))) ∧
    (∀ base : Mat, base.H = 4 → base.W = 4 →
      ∀ (f : ℕ) (M : Mat), (f, M) ∈ build_levels base [1, 2, 4] →
        (f = 1 → M = base) ∧
        (f = 2 → M.H = 2 ∧ M.W = 2 ∧ ∀ i j, M.px i j
          = (base.px (i * 2) (j * 2) + base.px (i * 2) (j * 2 + 1)
            + base.px (i * 2 + 1) (j * 2) + base.px (i * 2 + 1) (j * 2 + 1)) / 4) ∧
        (f = 4 → M.H = 1 ∧ M.W = 1 ∧ M.px 0 0
          = (base.px 0 0 + base.px 0 1 + base.px 0 2 + base.px 0 3
            + base.px 1 0 + base.px 1 1 + base.px 1 2 + base.px 1 3
            + base.px 2 0 + base.px 2 1 + base.px 2 2 + base.px 2 3
            + base.px 3 0 + base.px 3 1 + base.px 3 2 + base.px 3 3) / 16)) := by
  have hmain : ∀ (base : Mat) (zs : List ℕ) (f : ℕ) (M : Mat), (f, M) ∈ build_levels base zs →
      (f ≤ 1 → M = base) ∧ (1 < f → M = coarsenMean f base) := by
    intro base zs f M hmem
    obtain ⟨f2, hf2, heq⟩ := List.mem_map.1 hmem
    have hff : f2 = f := congrArg Prod.fst heq
    subst hff
    have hM : M = if f2 ≤ 1 then base else coarsenMean f2 base :=
      (congrArg Prod.snd heq).symm
    constructor
    · intro hle
      rw [hM, if_pos hle]
    · intro hgt
      rw [hM, if_neg (by omega)]
  constructor
  · intro base zs f M hmem
    obtain ⟨h1, h2⟩ := hmain base zs f M hmem
    refine ⟨h1, fun hgt => ?_⟩
    rw [h2 hgt]
    exact ⟨rfl, rfl, fun i j => rfl⟩
  · intro base hH hW f M hmem
    obtain ⟨h1, h2⟩ := hmain base [1, 2, 4] f M hmem
    refine ⟨fun hf => h1 (by omega), fun hf => ?_, fun hf => ?_⟩
    · subst hf
      rw [h2 (by omega)]
      refine ⟨by simp [coarsenMean, hH], by simp [coarsenMean, hW], fun i j => ?_⟩
      simp only [coarsenMean, Finset.sum_range_succ, Finset.sum_range_zero]
      push_cast
      ring_nf
    · subst hf
      rw [h2 (by omega)]
      refine ⟨by simp [coarsenMean, hH], by simp [coarsenMean, hW], ?_⟩
      simp only [coarsenMean, Finset.sum_range_succ, Finset.sum_range_zero,
        Nat.zero_mul, Nat.zero_add]
      push_cast
      ring_nf

/-- Witness for C8 at a concrete input: on the 4x4 base with pixel value
`i`, the factor-4 level of `build_levels` is a single cell holding the
global mean. -/
theorem pyramidBuilder_block_mean_witness :
    ((4 : ℕ) = 1 → coarsenMean 4 ⟨4, 4, fun i _ => (i : ℚ)⟩ = ⟨4, 4, fun i _ => (i : ℚ)⟩) ∧
    ((4 : ℕ) = 2 → (coarsenMean 4 ⟨4, 4, fun i _ => (i : ℚ)⟩).H = 2 ∧
      (coarsenMean 4 ⟨4, 4, fun i _ => (i : ℚ)⟩).W = 2 ∧
      ∀ i j, (coarsenMean 4 ⟨4, 4, fun i _ => (i : ℚ)⟩).px i j
        = ((i * 2 : ℕ) + (i * 2 : ℕ) + (i * 2 + 1 : ℕ) + (i * 2 + 1 : ℕ)) / 4) ∧
    ((4 : ℕ) = 4 → (coarsenMean 4 ⟨4, 4, fun i _ => (i : ℚ)⟩).H = 1 ∧
      (coarsenMean 4 ⟨4, 4, fun i _ => (i : ℚ)⟩).W = 1 ∧
      (coarsenMean 4 ⟨4, 4, fun i _ => (i : ℚ)⟩).px 0 0
        = ((0 : ℕ) + (0 : ℕ) + (0 : ℕ) + (0 : ℕ)
          + (1 : ℕ) + (1 : ℕ) + (1 : ℕ) + (1 : ℕ)
          + (2 : ℕ) + (2 : ℕ) + (2 : ℕ) + (2 : ℕ)
          + (3 : ℕ) + (3 : ℕ) + (3 : ℕ) + (3 : ℕ)) / 16) :=
  pyramidBuilder_block_mean.2 ⟨4, 4, fun i _ => (i : ℚ)⟩ rfl rfl 4
    (coarsenMean 4 ⟨4, 4, fun i _ => (i : ℚ)⟩) (by simp [build_levels])

/-- One row of the offsets table handed to `TileRenderer.composite`
(`rt_viewer/rtviewer/renderer.py`): a fov id and full-resolution pixel
offsets `dx`, `dy` (floats, here exact rationals). -/
structure OffRow where
  fov : ℕ
  dx : ℚ
  dy : ℚ

/-- Python `astype(int)` on a float: truncation toward zero. -/
def ratTrunc (q : ℚ) : ℤ := if 0 ≤ q then ⌊q⌋ else ⌈q⌉

/-- `int(np.ceil(H / level))` for natural `H` and positive `level`. -/
def ceilDiv (a b : ℕ) : ℕ := (a + b - 1) / b

/-- `arr[::level, ::level]`: stride subsampling (no averaging); the result
has `ceil(H/level)` rows and `ceil(W/level)` columns. -/
def strided (level : ℕ) (t : Mat) : Mat :=
  ⟨ceilDiv t.H level, ceilDiv t.W level, fun i j => t.px (i * level) (j * level)⟩

/-- `composite[top:top+h, left:left+w] = arr`: plain overwrite of a
rectangular region, leaving the canvas dimensions unchanged. -/
def paste (canvas : Mat) (top left : ℕ) (t : Mat) : Mat :=
  ⟨canvas.H, canvas.W, fun i j =>
    if top ≤ i ∧ i < top + t.H ∧ left ≤ j ∧ j < left + t.W then t.px (i - top) (j - left)
    else canvas.px i j⟩

/-- The level-scaled x offsets `(offsets['dx'] / level).astype(int)`. -/
def offXs (offsets : List OffRow) (level : ℕ) : List ℤ :=
  offsets.map fun o => ratTrunc (o.dx / level)

/-- The level-scaled y offsets `(offsets['dy'] / level).astype(int)`. -/
def offYs (offsets : List OffRow) (level : ℕ) : List ℤ :=
  offsets.map fun o => ratTrunc (o.dy / level)

/-- Minimum of a series (`xs.min()`); `0` for an empty list, which the
renderer never queries (it returns early on an empty offsets table). -/
def listMin : List ℤ → ℤ
  | [] => 0
  | a :: t => t.foldl min a

/-- Maximum of a series (`xs.max()`). -/
def listMax : List ℤ → ℤ
  | [] => 0
  | a :: t => t.foldl max a

/-- The canvas row at which tile `o` is pasted:
`int(row['dy'] / level) - min_y`. -/
def topOf (offsets : List OffRow) (level : ℕ) (o : OffRow) : ℕ :=
  (ratTrunc (o.dy / level) - listMin (offYs offsets level)).toNat

/-- The canvas column at which tile `o` is pasted:
`int(row['dx'] / level) - min_x`. -/
def leftOf (offsets : List OffRow) (level : ℕ) (o : OffRow) : ℕ :=
  (ratTrunc (o.dx / level) - listMin (offXs offsets level)).toNat

/-- Whether the pasted region of tile `o` covers canvas pixel `(i, j)`. -/
def coverB (tiles : ℕ → Mat) (offsets : List OffRow) (level : ℕ) (i j : ℕ)
    (o : OffRow) : Bool :=
  decide (topOf offsets level o ≤ i ∧
    i < topOf offsets level o + (strided level (tiles o.fov)).H ∧
    leftOf offsets level o ≤ j ∧
    j < leftOf offsets level o + (strided level (tiles o.fov)).W)

/-- The paste loop of `TileRenderer.composite`, in iteration order. -/
def pasteAll (tiles : ℕ → Mat) (offsets : List OffRow) (level : ℕ)
    (canvas : Mat) (l : List OffRow) : Mat :=
  l.foldl (fun cv o =>
    paste cv (topOf offsets level o) (leftOf offsets level o)
      (strided level (tiles o.fov))) canvas

/-- `TileRenderer.composite(offsets, level)`: returns a 1x1 zero canvas for
an empty offsets table; otherwise sizes the canvas from the extent of the
level-scaled offsets plus the first tile's downsampled footprint, then
pastes every stride-downsampled tile at its offset in iteration order.
The tile store `tiles` embeds `self.cache.get(fov, self.z, 1)` (with the
first channel already selected for 3D tiles). -/
def composite (tiles : ℕ → Mat) (offsets : List OffRow) (level : ℕ) : Mat :=
  match offsets with
  | [] => ⟨1, 1, fun _ _ => 0⟩
  | o0 :: _ =>
    let arr0 := tiles o0.fov
    let outH := (listMax (offYs offsets level) - listMin (offYs offsets level)).toNat
      + ceilDiv arr0.H level
    let outW := (listMax (offXs offsets level) - listMin (offXs offsets level)).toNat
      + ceilDiv arr0.W level
    pasteAll tiles offsets level ⟨outH, outW, fun _ _ => 0⟩ offsets

theorem foldl_min_spec : ∀ (t : List ℤ) (a : ℤ),
    t.foldl min a ≤ a ∧ ∀ x ∈ t, t.foldl min a ≤ x := by
  intro t
  induction t with
  | nil => exact fun a => ⟨le_refl a, by simp⟩
  | cons b t2 ih =>
    intro a
    obtain ⟨h1, h2⟩ := ih (min a b)
    simp only [List.foldl_cons]
    refine ⟨le_trans h1 (min_le_left a b), ?_⟩
    intro x hx
    rcases List.mem_cons.1 hx with hxb | hxt
    · rw [hxb]
      exact le_trans h1 (min_le_right a b)
    · exact h2 x hxt

theorem foldl_max_spec : ∀ (t : List ℤ) (a : ℤ),
    a ≤ t.foldl max a ∧ ∀ x ∈ t, x ≤ t.foldl max a := by
  intro t
  induction t with
  | nil => exact fun a => ⟨le_refl a, by simp⟩
  | cons b t2 ih =>
    intro a
    obtain ⟨h1, h2⟩ := ih (max a b)
    simp only [List.foldl_cons]
    refine ⟨le_trans (le_max_left a b) h1, ?_⟩
    intro x hx
    rcases List.mem_cons.1 hx with hxb | hxt
    · rw [hxb]
      exact le_trans (le_max_right a b) h1
    · exact h2 x hxt

theorem listMin_le {l : List ℤ} {x : ℤ} (hx : x ∈ l) : listMin l ≤ x := by
  cases l with
  | nil => simp at hx
  | cons a t =>
    rcases List.mem_cons.1 hx with hxa | hxt
    · exact hxa ▸ (foldl_min_spec t a).1
    · exact (foldl_min_spec t a).2 x hxt

theorem le_listMax {l : List ℤ} {x : ℤ} (hx : x ∈ l) : x ≤ listMax l := by
  cases l with
  | nil => simp at hx
  | cons a t =>
    rcases List.mem_cons.1 hx with hxa | hxt
    · exact hxa ▸ (foldl_max_spec t a).1
    · exact (foldl_max_spec t a).2 x hxt

theorem pasteAll_H (tiles : ℕ → Mat) (offsets : List OffRow) (level : ℕ) :
    ∀ (l : List OffRow) (canvas : Mat),
      (pasteAll tiles offsets level canvas l).H = canvas.H := by
  intro l
  induction l with
  | nil => exact fun canvas => rfl
  | cons o rest ih => exact fun canvas => ih _

theorem pasteAll_W (tiles : ℕ → Mat) (offsets : List OffRow) (level : ℕ) :
    ∀ (l : List OffRow) (canvas : Mat),
      (pasteAll tiles offsets level canvas l).W = canvas.W := by
  intro l
  induction l with
  | nil => exact fun canvas => rfl
  | cons o rest ih => exact fun canvas => ih _

theorem pasteAll_px (tiles : ℕ → Mat) (offsets : List OffRow) (level : ℕ) :
    ∀ (l : List OffRow) (canvas : Mat) (i j : ℕ),
      (pasteAll tiles offsets level canvas l).px i j
        = match l.reverse.find? (coverB tiles offsets level i j) with
          | some o => (tiles o.fov).px ((i - topOf offsets level o) * level)
              ((j - leftOf offsets level o) * level)
          | none => canvas.px i j := by
  intro l
  induction l with
  | nil => intro canvas i j; rfl
  | cons o rest ih =>
    intro canvas i j
    have hfold : pasteAll tiles offsets level canvas (o :: rest)
        = pasteAll tiles offsets level
            (paste canvas (topOf offsets level o) (leftOf offsets level o)
              (strided level (tiles o.fov))) rest := rfl
    rw [hfold, ih]
    have hrev : (o :: rest).reverse = rest.reverse ++ [o] := by simp
    rw [hrev, List.find?_append]
    cases hfind : rest.reverse.find? (coverB tiles offsets level i j) with
    | some o2 => rfl
    | none =>
      simp only [Option.orElse_none, Option.none_orElse]
      cases hcov : coverB tiles offsets level i j o with
      | true =>
        have hcond := of_decide_eq_true hcov
        simp only [List.find?_cons, hcov]
        simp only [paste, strided] at *
        rw [if_pos hcond]
        rfl
      | false =>
        have hcond := of_decide_eq_false hcov
        simp only [List.find?_cons, hcov, List.find?_nil]
        simp only [paste, strided] at *
        rw [if_neg hcond]
        rfl

theorem ceilDiv_eq_ceil (a b : ℕ) (hb : 1 ≤ b) :
    (ceilDiv a b : ℤ) = ⌈(a : ℚ) / (b : ℚ)⌉ := by
  obtain ⟨q, hq⟩ : ∃ q, ceilDiv a b = q := ⟨_, rfl⟩
  have hq2 : (a + b - 1) / b = q := hq
  have hdm := Nat.div_add_mod (a + b - 1) b
  rw [hq2] at hdm
  have hmod := Nat.mod_lt (a + b - 1) (show 0 < b by omega)
  obtain ⟨t, ht⟩ : ∃ t, b * q = t := ⟨_, rfl⟩
  rw [ht] at hdm
  have h1 : a ≤ t := by omega
  have h2 : t < a + b := by omega
  have hbq : (0 : ℚ) < (b : ℚ) := by positivity
  have h1q : (a : ℚ) ≤ (b : ℚ) * (q : ℚ) := by
    have hc := (Nat.cast_le (α := ℚ)).2 h1
    rw [← ht] at hc
    push_cast at hc
    exact hc
  have h2q : (b : ℚ) * (q : ℚ) < (a : ℚ) + (b : ℚ) := by
    have hc := (Nat.cast_lt (α := ℚ)).2 h2
    rw [← ht] at hc
    push_cast at hc
    exact hc
  rw [hq]
  symm
  rw [Int.ceil_eq_iff]
  constructor
  · rw [lt_div_iff₀ hbq]
    push_cast
    nlinarith [h2q]
  · rw [div_le_iff₀ hbq]
    push_cast
    nlinarith [h1q]

/-- C7.  `TileRenderer.composite` on a non-empty offsets table: the canvas
dimensions are the bounding extent of the level-scaled tile offsets plus
one tile's downsampled footprint (with `ceil(H/level)` rows for the
downsampled tile), every pasted region fits inside that canvas when all
tiles share the first tile's shape, and each canvas pixel holds the
stride-subsampled value of the last tile in iteration order covering it
(plain overwrite, no blending), or zero if no tile covers it. -/
theorem tileRenderer_composite_spec (tiles : ℕ → Mat) (level : ℕ) (o0 : OffRow)
    (rest : List OffRow) (hlev : 1 ≤ level)
    (hsame : ∀ o ∈ o0 :: rest, (tiles o.fov).H = (tiles o0.fov).H ∧
      (tiles o.fov).W = (tiles o0.fov).W) :
    (composite tiles (o0 :: rest) level).H
      = (listMax (offYs (o0 :: rest) level) - listMin (offYs (o0 :: rest) level)).toNat
        + ceilDiv (tiles o0.fov).H level ∧
    (composite tiles (o0 :: rest) level).W
      = (listMax (offXs (o0 :: rest) level) - listMin (offXs (o0 :: rest) level)).toNat
        + ceilDiv (tiles o0.fov).W level ∧
    (ceilDiv (tiles o0.fov).H level : ℤ) = ⌈((tiles o0.fov).H : ℚ) / (level : ℚ)⌉ ∧
    (∀ o ∈ o0 :: rest,
      topOf (o0 :: rest) level o + (strided level (tiles o.fov)).H
        ≤ (composite tiles (o0 :: rest) level).H ∧
      leftOf (o0 :: rest) level o + (strided level (tiles o.fov)).W
        ≤ (composite tiles (o0 :: rest) level).W) ∧
    (∀ i j, (composite tiles (o0 :: rest) level).px i j
      = match (o0 :: rest).reverse.find? (coverB tiles (o0 :: rest) level i j) with
        | some o => (tiles o.fov).px ((i - topOf (o0 :: rest) level o) * level)
            ((j - leftOf (o0 :: rest) level o) * level)
        | none => 0) := by
  have hunfold : composite tiles (o0 :: rest) level
      = pasteAll tiles (o0 :: rest) level
          ⟨(listMax (offYs (o0 :: rest) level) - listMin (offYs (o0 :: rest) level)).toNat
            + ceilDiv (tiles o0.fov).H level,
           (listMax (offXs (o0 :: rest) level) - listMin (offXs (o0 :: rest) level)).toNat
            + ceilDiv (tiles o0.fov).W level,
           fun _ _ => 0⟩ (o0 :: rest) := rfl
  have hcompH : (composite tiles (o0 :: rest) level).H
      = (listMax (offYs (o0 :: rest) level) - listMin (offYs (o0 :: rest) level)).toNat
        + ceilDiv (tiles o0.fov).H level := by
    rw [hunfold, pasteAll_H]
  have hcompW : (composite tiles (o0 :: rest) level).W
      = (listMax (offXs (o0 :: rest) level) - listMin (offXs (o0 :: rest) level)).toNat
        + ceilDiv (tiles o0.fov).W level := by
    rw [hunfold, pasteAll_W]
  refine ⟨hcompH, hcompW, ceilDiv_eq_ceil _ _ hlev, ?_, ?_⟩
  · intro o ho
    obtain ⟨hH, hW⟩ := hsame o ho
    constructor
    · rw [hcompH]
      have hmem : ratTrunc (o.dy / level) ∈ offYs (o0 :: rest) level :=
        List.mem_map_of_mem _ ho
      have hle := listMin_le hmem
      have hge := le_listMax hmem
      have htop : topOf (o0 :: rest) level o
          ≤ (listMax (offYs (o0 :: rest) level)
            - listMin (offYs (o0 :: rest) level)).toNat :=
        Int.toNat_le_toNat (by omega)
      have hstr : (strided level (tiles o.fov)).H = ceilDiv (tiles o0.fov).H level := by
        simp [strided, hH]
      omega
    · rw [hcompW]
      have hmem : ratTrunc (o.dx / level) ∈ offXs (o0 :: rest) level :=
        List.mem_map_of_mem _ ho
      have hle := listMin_le hmem
      have hge := le_listMax hmem
      have htop : leftOf (o0 :: rest) level o
          ≤ (listMax (offXs (o0 :: rest) level)
            - listMin (offXs (o0 :: rest) level)).toNat :=
        Int.toNat_le_toNat (by omega)
      have hstr : (strided level (tiles o.fov)).W = ceilDiv (tiles o0.fov).W level := by
        simp [strided, hW]
      omega
  · intro i j
    rw [hunfold, pasteAll_px]

/-- Witness for C7 at a concrete input: two 2x2 tiles pasted at offsets
(0,0) and (1,1) with level 1; the first tile's pasted region fits in the
canvas. -/
theorem tileRenderer_composite_spec_witness :
    topOf [⟨0, 0, 0⟩, ⟨1, 1, 1⟩] 1 ⟨0, 0, 0⟩
      + (strided 1 ((fun _ => (⟨2, 2, fun i j => (i + j : ℚ)⟩ : Mat)) (0 : ℕ))).H
      ≤ (composite (fun _ => ⟨2, 2, fun i j => (i + j : ℚ)⟩) [⟨0, 0, 0⟩, ⟨1, 1, 1⟩] 1).H ∧
    leftOf [⟨0, 0, 0⟩, ⟨1, 1, 1⟩] 1 ⟨0, 0, 0⟩
      + (strided 1 ((fun _ => (⟨2, 2, fun i j => (i + j : ℚ)⟩ : Mat)) (0 : ℕ))).W
      ≤ (composite (fun _ => ⟨2, 2, fun i j => (i + j : ℚ)⟩) [⟨0, 0, 0⟩, ⟨1, 1, 1⟩] 1).W :=
  (tileRenderer_composite_spec (fun _ => ⟨2, 2, fun i j => (i + j : ℚ)⟩) 1
    ⟨0, 0, 0⟩ [⟨1, 1, 1⟩] (by decide)
    (fun o _ => ⟨rfl, rfl⟩)).2.2.2.1 ⟨0, 0, 0⟩ (List.mem_cons_self _ _)

/-- The phase of one thread executing `TileCache.get` for one fixed key
that is initially not resident.  The phases split the body of `get` at the
program points inside the `with self._lock:` block: check the cache, call
`DataSource.load_tile`, run the `isinstance`/size checks and insert the
loaded tile (`inserting b` holds the tile `b` returned by the load), and
return; `raised` is a thread whose `get` raised `TypeError`/`ValueError`
because the loaded tile failed those checks. -/
inductive TPhase where
  | idle
  | checking
  | loading
  | inserting (b : PyObj)
  | done (b : PyObj)
  | raised
deriving DecidableEq

/-- Global state of `n` threads calling `TileCache.get` for one key:
the mutex owner (`threading.Lock`), the cache slot for the key, the number
of `load_tile` calls issued so far, and each thread's phase. -/
structure LockState (n : ℕ) where
  lock : Option (Fin n)
  cache : Option PyObj
  loads : ℕ
  ts : Fin n → TPhase

/-- The two checks `get` runs on a freshly loaded tile before inserting it:
`isinstance(tile, np.ndarray)` and `tile.nbytes <= max_bytes`
(`cache.py:69-77`).  A tile failing either check makes `get` raise. -/
def validTile (maxBytes : ℕ) : PyObj → Prop
  | .ndarray nb _ => nb ≤ maxBytes
  | .other _ => False

/-- Interleaving semantics of `TileCache.get` under the single mutex:
`acquire` blocks until the lock is free; the check, the load, and the
type/size checks plus insert all require holding the lock (they sit inside
the `with` block), and the lock is released when `get` returns or raises
(the `with` statement releases it when the exception propagates).
`loadVal` is the tile the external data source returns for the key: a
valid tile is inserted (`insert`), an invalid one makes the thread raise
`TypeError`/`ValueError` with the key left unresident (`raiseTile`). -/
inductive LockStep (n : ℕ) (maxBytes : ℕ) (loadVal : PyObj) :
    LockState n → LockState n → Prop where
  | acquire (s : LockState n) (t : Fin n) :
      s.ts t = .idle → s.lock = none →
      LockStep n maxBytes loadVal s
        { s with lock := some t, ts := Function.update s.ts t .checking }
  | checkHit (s : LockState n) (t : Fin n) (b : PyObj) :
      s.ts t = .checking → s.lock = some t → s.cache = some b →
      LockStep n maxBytes loadVal s
        { s with lock := none, ts := Function.update s.ts t (.done b) }
  | checkMiss (s : LockState n) (t : Fin n) :
      s.ts t = .checking → s.lock = some t → s.cache = none →
      LockStep n maxBytes loadVal s { s with ts := Function.update s.ts t .loading }
  | load (s : LockState n) (t : Fin n) :
      s.ts t = .loading → s.lock = some t →
      LockStep n maxBytes loadVal s
        { s with loads := s.loads + 1,
                 ts := Function.update s.ts t (.inserting loadVal) }
  | insert (s : LockState n) (t : Fin n) (b : PyObj) :
      s.ts t = .inserting b → s.lock = some t → validTile maxBytes b →
      LockStep n maxBytes loadVal s
        { s with cache := some b, lock := none,
                 ts := Function.update s.ts t (.done b) }
  | raiseTile (s : LockState n) (t : Fin n) (b : PyObj) :
      s.ts t = .inserting b → s.lock = some t → ¬ validTile maxBytes b →
      LockStep n maxBytes loadVal s
        { s with lock := none, ts := Function.update s.ts t .raised }

/-- All threads idle, key not resident, no loads issued. -/
def initLock (n : ℕ) : LockState n := ⟨none, none, 0, fun _ => .idle⟩

/-- Phases that may only be occupied while holding the lock. -/
def inCS : TPhase → Prop
  | .checking => True
  | .loading => True
  | .inserting _ => True
  | _ => False

/-- The inductive invariant of the interleaving semantics. -/
def LockInv (n : ℕ) (loadVal : PyObj) (s : LockState n) : Prop :=
  (∀ t, inCS (s.ts t) → s.lock = some t) ∧
  (∀ t, s.ts t = .loading → s.cache = none) ∧
  (∀ b, s.cache = some b → b = loadVal) ∧
  (∀ t b, s.ts t = .inserting b → b = loadVal ∧ s.cache = none) ∧
  (∀ t b, s.ts t = .done b → b = loadVal) ∧
  (s.cache = none → (∀ t b, s.ts t ≠ .inserting b) → s.loads = 0) ∧
  ((∃ b, s.cache = some b) ∨ (∃ t b, s.ts t = .inserting b) → s.loads = 1) ∧
  (∀ t b, s.ts t = .done b → s.loads = 1) ∧
  (∀ t, s.ts t ≠ .raised)

theorem lockInv_init (n : ℕ) (loadVal : PyObj) : LockInv n loadVal (initLock n) := by
  refine ⟨?_, ?_, ?_, ?_, ?_, ?_, ?_, ?_, ?_⟩ <;> simp [initLock, inCS]

theorem lockInv_step {n maxBytes : ℕ} {loadVal : PyObj} {s s2 : LockState n}
    (hvalid : validTile maxBytes loadVal)
    (hstep : LockStep n maxBytes loadVal s s2) (hinv : LockInv n loadVal s) :
    LockInv n loadVal s2 := by
  obtain ⟨h1, h2, h3, h4, h5, h6, h7, h8, h9⟩ := hinv
  cases hstep with
  | acquire t hidle hlock =>
    refine ⟨?_, ?_, ?_, ?_, ?_, ?_, ?_, ?_, ?_⟩
    · intro u hu
      by_cases hut : u = t
      · simp [hut]
      · simp only [Function.update_apply, hut, if_false] at hu
        rw [hlock] at h1
        exact absurd (h1 u hu) (by simp)
    · intro u hu
      by_cases hut : u = t
      · simp [Function.update_apply, hut] at hu
      · simp only [Function.update_apply, hut, if_false] at hu
        exact h2 u hu
    · exact h3
    · intro u b hu
      by_cases hut : u = t
      · simp [Function.update_apply, hut] at hu
      · simp only [Function.update_apply, hut, if_false] at hu
        exact h4 u b hu
    · intro u b hu
      by_cases hut : u = t
      · simp [Function.update_apply, hut] at hu
      · simp only [Function.update_apply, hut, if_false] at hu
        exact h5 u b hu
    · intro hc hni
      refine h6 hc ?_
      intro u b
      by_cases hut : u = t
      · rw [hut, hidle]
        simp
      · have := hni u b
        simpa only [Function.update_apply, hut, if_false] using this
    · intro hcond
      apply h7
      rcases hcond with ⟨b, hb⟩ | ⟨u, b, hu⟩
      · exact Or.inl ⟨b, hb⟩
      · by_cases hut : u = t
        · simp [Function.update_apply, hut] at hu
        · simp only [Function.update_apply, hut, if_false] at hu
          exact Or.inr ⟨u, b, hu⟩
    · intro u b hu
      by_cases hut : u = t
      · simp [Function.update_apply, hut] at hu
      · simp only [Function.update_apply, hut, if_false] at hu
        exact h8 u b hu
    · intro u
      by_cases hut : u = t
      · simp [Function.update_apply, hut]
      · simp only [Function.update_apply, hut, if_false]
        exact h9 u
  | checkHit t b hchk hlock hcache =>
    have hother : ∀ u, u ≠ t → ¬ inCS (s.ts u) := by
      intro u hut hcs
      have hl := h1 u hcs
      rw [hlock] at hl
      exact hut (Option.some.inj hl).symm
    refine ⟨?_, ?_, ?_, ?_, ?_, ?_, ?_, ?_, ?_⟩
    · intro u hu
      by_cases hut : u = t
      · simp [Function.update_apply, hut, inCS] at hu
      · simp only [Function.update_apply, hut, if_false] at hu
        exact absurd hu (hother u hut)
    · intro u hu
      by_cases hut : u = t
      · simp [Function.update_apply, hut] at hu
      · simp only [Function.update_apply, hut, if_false] at hu
        exact absurd (show inCS (s.ts u) by rw [hu]; trivial) (hother u hut)
    · exact h3
    · intro u b2 hu
      by_cases hut : u = t
      · simp [Function.update_apply, hut] at hu
      · simp only [Function.update_apply, hut, if_false] at hu
        exact absurd (show inCS (s.ts u) by rw [hu]; trivial) (hother u hut)
    · intro u b2 hu
      by_cases hut : u = t
      · simp only [Function.update_apply, hut, if_true] at hu
        have hb2 : b2 = b := by
          cases hu  

          rfl
        rw [hb2]
        exact h3 b hcache
      · simp only [Function.update_apply, hut, if_false] at hu
        exact h5 u b2 hu
    · intro hc _
      rw [hcache] at hc
      exact absurd hc (by simp)
    · intro _
      exact h7 (Or.inl ⟨b, hcache⟩)
    · intro u b2 _
      exact h7 (Or.inl ⟨b, hcache⟩)
    · intro u
      by_cases hut : u = t
      · simp [Function.update_apply, hut]
      · simp only [Function.update_apply, hut, if_false]
        exact h9 u
  | checkMiss t hchk hlock hcache =>
    have hother : ∀ u, u ≠ t → ¬ inCS (s.ts u) := by
      intro u hut hcs
      have hl := h1 u hcs
      rw [hlock] at hl
      exact hut (Option.some.inj hl).symm
    refine ⟨?_, ?_, ?_, ?_, ?_, ?_, ?_, ?_, ?_⟩
    · intro u hu
      by_cases hut : u = t
      · rw [hut]
        exact hlock
      · simp only [Function.update_apply, hut, if_false] at hu
        exact absurd hu (hother u hut)
    · intro u _
      exact hcache
    · exact h3
    · intro u b hu
      by_cases hut : u = t
      · simp [Function.update_apply, hut] at hu
      · simp only [Function.update_apply, hut, if_false] at hu
        exact h4 u b hu
    · intro u b hu
      by_cases hut : u = t
      · simp [Function.update_apply, hut] at hu
      · simp only [Function.update_apply, hut, if_false] at hu
        exact h5 u b hu
    · intro hc hni
      refine h6 hc ?_
      intro u b
      by_cases hut : u = t
      · rw [hut, hchk]
        simp
      · have := hni u b
        simpa only [Function.update_apply, hut, if_false] using this
    · intro hcond
      apply h7
      rcases hcond with ⟨b, hb⟩ | ⟨u, b, hu⟩
      · exact Or.inl ⟨b, hb⟩
      · by_cases hut : u = t
        · simp [Function.update_apply, hut] at hu
        · simp only [Function.update_apply, hut, if_false] at hu
          exact Or.inr ⟨u, b, hu⟩
    · intro u b hu
      by_cases hut : u = t
      · simp [Function.update_apply, hut] at hu
      · simp only [Function.update_apply, hut, if_false] at hu
        exact h8 u b hu
    · intro u
      by_cases hut : u = t
      · simp [Function.update_apply, hut]
      · simp only [Function.update_apply, hut, if_false]
        exact h9 u
  | load t hload hlock =>
    have hother : ∀ u, u ≠ t → ¬ inCS (s.ts u) := by
      intro u hut hcs
      have hl := h1 u hcs
      rw [hlock] at hl
      exact hut (Option.some.inj hl).symm
    have hcache : s.cache = none := h2 t hload
    have hnoins : ∀ u b, s.ts u ≠ .inserting b := by
      intro u b hu
      by_cases hut : u = t
      · rw [hut, hload] at hu
        exact absurd hu (by simp)
      · exact hother u hut (by rw [hu]; trivial)
    have hloads0 : s.loads = 0 := h6 hcache hnoins
    refine ⟨?_, ?_, ?_, ?_, ?_, ?_, ?_, ?_, ?_⟩
    · intro u hu
      by_cases hut : u = t
      · rw [hut]
        exact hlock
      · simp only [Function.update_apply, hut, if_false] at hu
        exact absurd hu (hother u hut)
    · intro u hu
      by_cases hut : u = t
      · simp [Function.update_apply, hut] at hu
      · simp only [Function.update_apply, hut, if_false] at hu
        exact h2 u hu
    · exact h3
    · intro u b hu
      by_cases hut : u = t
      · simp only [Function.update_apply, hut, if_true] at hu
        have hb : b = loadVal := by
          cases hu  

          rfl
        exact ⟨hb, hcache⟩
      · simp only [Function.update_apply, hut, if_false] at hu
        exact h4 u b hu
    · intro u b hu
      by_cases hut : u = t
      · simp [Function.update_apply, hut] at hu
      · simp only [Function.update_apply, hut, if_false] at hu
        exact h5 u b hu
    · intro _ hni
      exact absurd (show Function.update s.ts t (TPhase.inserting loadVal) t
        = .inserting loadVal by simp) (hni t loadVal)
    · intro _
      rw [hloads0]
    · intro u b hu
      by_cases hut : u = t
      · simp [Function.update_apply, hut] at hu
      · simp only [Function.update_apply, hut, if_false] at hu
        have := h8 u b hu
        omega
    · intro u
      by_cases hut : u = t
      · simp [Function.update_apply, hut]
      · simp only [Function.update_apply, hut, if_false]
        exact h9 u
  | insert t b hins hlock hok =>
    have hother : ∀ u, u ≠ t → ¬ inCS (s.ts u) := by
      intro u hut hcs
      have hl := h1 u hcs
      rw [hlock] at hl
      exact hut (Option.some.inj hl).symm
    have hbv : b = loadVal := (h4 t b hins).1
    have hloads1 : s.loads = 1 := h7 (Or.inr ⟨t, b, hins⟩)
    refine ⟨?_, ?_, ?_, ?_, ?_, ?_, ?_, ?_, ?_⟩
    · intro u hu
      by_cases hut : u = t
      · simp [Function.update_apply, hut, inCS] at hu
      · simp only [Function.update_apply, hut, if_false] at hu
        exact absurd hu (hother u hut)
    · intro u hu
      by_cases hut : u = t
      · simp [Function.update_apply, hut] at hu
      · simp only [Function.update_apply, hut, if_false] at hu
        exact absurd (show inCS (s.ts u) by rw [hu]; trivial) (hother u hut)
    · intro b2 hb2
      have : b = b2 := Option.some.inj hb2
      rw [← this]
      exact hbv
    · intro u b2 hu
      by_cases hut : u = t
      · simp [Function.update_apply, hut] at hu
      · simp only [Function.update_apply, hut, if_false] at hu
        exact absurd (show inCS (s.ts u) by rw [hu]; trivial) (hother u hut)
    · intro u b2 hu
      by_cases hut : u = t
      · simp only [Function.update_apply, hut, if_true] at hu
        have hb2 : b2 = b := by
          cases hu  

          rfl
        rw [hb2]
        exact hbv
      · simp only [Function.update_apply, hut, if_false] at hu
        exact h5 u b2 hu
    · intro hc _
      exact absurd hc (by simp)
    · intro _
      exact hloads1
    · intro u b2 _
      exact hloads1
    · intro u
      by_cases hut : u = t
      · simp [Function.update_apply, hut]
      · simp only [Function.update_apply, hut, if_false]
        exact h9 u
  | raiseTile t b hins hlock hbad =>
    have hb : b = loadVal := (h4 t b hins).1
    rw [hb] at hbad
    exact absurd hvalid hbad

/-- C3.  At-most-one-load-per-key under concurrency: in every interleaving
of `n` threads calling `TileCache.get` for the same initially-missing key,
provided the data source returns a tile that passes the `isinstance` and
size checks (an `ndarray` with `nbytes <= max_bytes` — otherwise the real
code raises and the key stays unresident), the single mutex makes the
check-load-check-insert sequence a critical section, so the data source is
invoked at most once; every caller that returns has received the loaded
buffer, and once any caller has returned the load count is exactly one. -/
theorem tileCache_concurrent_single_load (n maxBytes : ℕ) (loadVal : PyObj)
    (hvalid : validTile maxBytes loadVal) (s : LockState n)
    (hreach : Relation.ReflTransGen (LockStep n maxBytes loadVal) (initLock n) s) :
    s.loads ≤ 1 ∧ ∀ t b, s.ts t = TPhase.done b → b = loadVal ∧ s.loads = 1 := by
  have hinv : LockInv n loadVal s := by
    induction hreach with
    | refl => exact lockInv_init n loadVal
    | tail _hsteps hstep ih => exact lockInv_step hvalid hstep ih
  obtain ⟨_, _, _, _, h5, h6, h7, h8, _⟩ := hinv
  constructor
  · by_cases hc : (∃ b, s.cache = some b) ∨ ∃ t b, s.ts t = TPhase.inserting b
    · rw [h7 hc]
    · have hcn : s.cache = none := by
        cases hcache : s.cache with
        | none => rfl
        | some b => exact absurd (Or.inl ⟨b, hcache⟩) hc
      have hni : ∀ t b, s.ts t ≠ TPhase.inserting b := by
        intro t b ht
        exact hc (Or.inr ⟨t, b, ht⟩)
      rw [h6 hcn hni]
      omega
  · intro t b ht
    exact ⟨h5 t b ht, h8 t b ht⟩

/-- Witness for C3: a loaded tile of 4 bytes against a 100-byte budget
passes the type and size checks, and an explicit interleaving of one
thread — acquire, miss, load, insert — reaches a state with exactly one
load and the loaded tile returned. -/
theorem tileCache_concurrent_single_load_witness :
    validTile 100 (PyObj.ndarray 4 7) ∧
    ∃ s : LockState 2,
      Relation.ReflTransGen (LockStep 2 100 (PyObj.ndarray 4 7)) (initLock 2) s ∧
      s.loads ≤ 1 ∧ ∀ t b, s.ts t = TPhase.done b → b = PyObj.ndarray 4 7 ∧ s.loads = 1 := by
  have hv : validTile 100 (PyObj.ndarray 4 7) := by
    show (4 : ℕ) ≤ 100
    decide
  have hreach : Relation.ReflTransGen (LockStep 2 100 (PyObj.ndarray 4 7)) (initLock 2)
      ⟨none, some (PyObj.ndarray 4 7), 0 + 1,
        Function.update (Function.update (Function.update (Function.update
          (fun _ => TPhase.idle) 0 TPhase.checking) 0 TPhase.loading) 0
          (TPhase.inserting (PyObj.ndarray 4 7))) 0 (TPhase.done (PyObj.ndarray 4 7))⟩ :=
    Relation.ReflTransGen.tail (Relation.ReflTransGen.tail
      (Relation.ReflTransGen.tail (Relation.ReflTransGen.tail Relation.ReflTransGen.refl
        (LockStep.acquire (initLock 2) 0 rfl rfl))
        (LockStep.checkMiss _ 0 (by simp [Function.update_apply]) rfl rfl))
        (LockStep.load _ 0 (by simp [Function.update_apply]) rfl))
        (LockStep.insert _ 0 (PyObj.ndarray 4 7) (by simp [Function.update_apply]) rfl hv)
  exact ⟨hv, _, hreach,
    tileCache_concurrent_single_load 2 100 (PyObj.ndarray 4 7) hv _ hreach⟩

end RTV

namespace Reg

/-- A 2D real-valued image for `phase_correlation` in `registration.py`
(`np.float32` data idealised as exact reals). -/
structure Img where
  H : ℕ
  W : ℕ
  px : ℕ → ℕ → ℝ

/-- `EPS = 1e-8` from `registration.py`. -/
noncomputable def EPS : ℝ := 1 / 100000000

/-- `fft2(a, s=(H, W))`: zero-pad `a` to `(H, W)` and take the 2D discrete
Fourier transform, `F[u,v] = sum_j sum_k a[j,k] exp(-2 pi i (j u / H + k v / W))`. -/
noncomputable def dft2 (img : Img) (H W : ℕ) (u v : ℕ) : ℂ :=
  ∑ j ∈ Finset.range img.H, ∑ k ∈ Finset.range img.W,
    (img.px j k : ℂ) *
      Complex.exp (-(2 * Real.pi * Complex.I) * ((j : ℂ) * u / H + (k : ℂ) * v / W))

/-- `R = FA * conj(FB)` at the linear-correlation size
`(HA + HB - 1, WA + WB - 1)`. -/
noncomputable def crossPower (A B : Img) (u v : ℕ) : ℂ :=
  dft2 A (A.H + B.H - 1) (A.W + B.W - 1) u v *
    (starRingEnd ℂ) (dft2 B (A.H + B.H - 1) (A.W + B.W - 1) u v)

/-- `R /= abs(R) + EPS`: the normalised cross-power spectrum. -/
noncomputable def crossPowerNorm (A B : Img) (u v : ℕ) : ℂ :=
  crossPower A B u v / (((Complex.abs (crossPower A B u v) : ℝ) : ℂ) + (EPS : ℂ))

/-- `corr = ifft2(R)`: the inverse 2D DFT of the normalised cross-power
spectrum, `corr[m,n] = (1/(H W)) sum_u sum_v R[u,v] exp(2 pi i (u m / H + v n / W))`. -/
noncomputable def corrC (A B : Img) (m n : ℕ) : ℂ :=
  (1 / (((A.H + B.H - 1) * (A.W + B.W - 1) : ℕ) : ℂ)) *
    ∑ u ∈ Finset.range (A.H + B.H - 1), ∑ v ∈ Finset.range (A.W + B.W - 1),
      crossPowerNorm A B u v *
        Complex.exp ((2 * Real.pi * Complex.I) *
          ((u : ℂ) * m / (A.H + B.H - 1) + (v : ℂ) * n / (A.W + B.W - 1)))

/-- `corr = xp.abs(corr)`: the correlation magnitude surface. -/
noncomputable def corrAbs (A B : Img) (m n : ℕ) : ℝ := Complex.abs (corrC A B m n)

open Classical in
/-- `int(xp.argmax(corr))`: the first flat (row-major) index attaining the
maximum, 0 for an empty array (NumPy would raise there). -/
noncomputable def argmaxFlat (N : ℕ) (f : ℕ → ℝ) : ℕ :=
  let maxims := (Finset.range N).filter fun i => ∀ j ∈ Finset.range N, f j ≤ f i
  if h : maxims.Nonempty then maxims.min' h else 0

/-- The flat argmax of the correlation magnitude surface. -/
noncomputable def peakFlat (A B : Img) : ℕ :=
  argmaxFlat ((A.H + B.H - 1) * (A.W + B.W - 1))
    (fun i => corrAbs A B (i / (A.W + B.W - 1)) (i % (A.W + B.W - 1)))

/-- `peak_y` from `np.unravel_index` (row-major). -/
noncomputable def peakY (A B : Img) : ℕ := peakFlat A B / (A.W + B.W - 1)

/-- `peak_x` from `np.unravel_index` (row-major). -/
noncomputable def peakX (A B : Img) : ℕ := peakFlat A B % (A.W + B.W - 1)

/-- `y0 = max(0, peak_y - 1)` (truncated subtraction on ℕ). -/
noncomputable def winY0 (A B : Img) : ℕ := peakY A B - 1

/-- `y1 = min(corr.shape[0] - 1, peak_y + 1)`. -/
noncomputable def winY1 (A B : Img) : ℕ := min ((A.H + B.H - 1) - 1) (peakY A B + 1)

/-- `x0 = max(0, peak_x - 1)`. -/
noncomputable def winX0 (A B : Img) : ℕ := peakX A B - 1

/-- `x1 = min(corr.shape[1] - 1, peak_x + 1)`. -/
noncomputable def winX1 (A B : Img) : ℕ := min ((A.W + B.W - 1) - 1) (peakX A B + 1)

/-- The local window `corr[y0:y1+1, x0:x1+1]` as a function. -/
noncomputable def localWin (A B : Img) : ℕ → ℕ → ℝ :=
  fun i j => corrAbs A B (winY0 A B + i) (winX0 A B + j)

/-- Number of rows of the local window. -/
noncomputable def winRows (A B : Img) : ℕ := winY1 A B - winY0 A B + 1

/-- Number of columns of the local window. -/
noncomputable def winCols (A B : Img) : ℕ := winX1 A B - winX0 A B + 1

/-- `quad_interp(mat, axis, center_idx)` from `phase_correlation`: zero at
an array boundary along the chosen axis, otherwise the 1D parabola-fit
offset through the three values around the center (reading the fixed index
1 on the other axis, as the source does), guarding a zero denominator. -/
noncomputable def quad_interp (mat : ℕ → ℕ → ℝ) (rows cols : ℕ)
    (axis : ℕ) (center_idx : ℕ) : ℝ :=
  if center_idx = 0 ∨ center_idx = (if axis = 0 then rows else cols) - 1 then 0
  else
    let c1 := if axis = 0 then mat (center_idx - 1) 1 else mat 1 (center_idx - 1)
    let c := if axis = 0 then mat center_idx 1 else mat 1 center_idx
    let c2 := if axis = 0 then mat (center_idx + 1) 1 else mat 1 (center_idx + 1)
    let denom := 2 * (c1 - 2 * c + c2)
    if denom ≠ 0 then (c1 - c2) / denom else 0

/-- `dy_frac = quad_interp(local, 0, peak_y - y0)`. -/
noncomputable def dyFrac (A B : Img) : ℝ :=
  quad_interp (localWin A B) (winRows A B) (winCols A B) 0 (peakY A B - winY0 A B)

/-- `dx_frac = quad_interp(local, 1, peak_x - x0)`. -/
noncomputable def dxFrac (A B : Img) : ℝ :=
  quad_interp (localWin A B) (winRows A B) (winCols A B) 1 (peakX A B - winX0 A B)

/-- `phase_correlation(imgA, imgB)` from `registration.py`: the refined
peak location minus `(HB - 1, WB - 1)`. -/
noncomputable def phase_correlation (A B : Img) : ℝ × ℝ :=
  ((peakY A B : ℝ) + dyFrac A B - ((B.H : ℝ) - 1),
   (peakX A B : ℝ) + dxFrac A B - ((B.W : ℝ) - 1))

end Reg

namespace Reg

theorem dyFrac_eq_zero_of_boundary (A B : Img)
    (h : peakY A B = 0 ∨ peakY A B = (A.H + B.H - 1) - 1) : dyFrac A B = 0 := by
  have hcond : peakY A B - winY0 A B = 0 ∨
      peakY A B - winY0 A B
        = (if (0 : ℕ) = 0 then winRows A B else winCols A B) - 1 := by
    rw [if_pos rfl]
    unfold winRows winY1 winY0
    rcases h with h0 | h1
    · left
      omega
    · right
      omega
  unfold dyFrac quad_interp
  rw [if_pos hcond]

theorem dxFrac_eq_zero_of_boundary (A B : Img)
    (h : peakX A B = 0 ∨ peakX A B = (A.W + B.W - 1) - 1) : dxFrac A B = 0 := by
  have hcond : peakX A B - winX0 A B = 0 ∨
      peakX A B - winX0 A B
        = (if (1 : ℕ) = 0 then winRows A B else winCols A B) - 1 := by
    rw [if_neg (by omega)]
    unfold winCols winX1 winX0
    rcases h with h0 | h1
    · left
      omega
    · right
      omega
  unfold dxFrac quad_interp
  rw [if_pos hcond]

end Reg

namespace Reg

/-- The 2x2 delta image: a single bright pixel at the origin.  Used as a
concrete identical pair `phase_correlation(A, A)`. -/
noncomputable def deltaImg : Img := ⟨2, 2, fun j k => if j = 0 ∧ k = 0 then 1 else 0⟩

theorem dft2_delta (u v : ℕ) : dft2 deltaImg 3 3 u v = 1 := by
  simp [dft2, deltaImg, Finset.sum_range_succ]

theorem crossPower_delta (u v : ℕ) : crossPower deltaImg deltaImg u v = 1 := by
  have h : crossPower deltaImg deltaImg u v
      = dft2 deltaImg 3 3 u v * (starRingEnd ℂ) (dft2 deltaImg 3 3 u v) := rfl
  rw [h, dft2_delta, map_one, mul_one]

theorem crossPowerNorm_delta (u v : ℕ) :
    crossPowerNorm deltaImg deltaImg u v = 1 / (1 + (EPS : ℂ)) := by
  unfold crossPowerNorm
  rw [crossPower_delta]
  simp

theorem two_pi_I_ne_zero : (2 * (Real.pi : ℂ) * Complex.I) ≠ 0 :=
  mul_ne_zero (mul_ne_zero two_ne_zero (Complex.ofReal_ne_zero.2 Real.pi_ne_zero))
    Complex.I_ne_zero

theorem third_root_sum :
    1 + Complex.exp (2 * Real.pi * Complex.I / 3)
      + Complex.exp (2 * Real.pi * Complex.I / 3) ^ 2 = 0 := by
  have hw3 : Complex.exp (2 * Real.pi * Complex.I / 3) ^ 3 = 1 := by
    rw [← Complex.exp_nat_mul]
    have harg : ((3 : ℕ) : ℂ) * (2 * Real.pi * Complex.I / 3) = 2 * Real.pi * Complex.I := by
      push_cast
      field_simp
    rw [harg, Complex.exp_two_pi_mul_I]
  have hw1 : Complex.exp (2 * Real.pi * Complex.I / 3) ≠ 1 := by
    intro hexp
    rw [Complex.exp_eq_one_iff] at hexp
    obtain ⟨k, hk⟩ := hexp
    have h1 : (2 * (Real.pi : ℂ) * Complex.I) * (1 - 3 * k) = 0 := by
      field_simp at hk
      linear_combination hk
    rcases mul_eq_zero.1 h1 with hz | hz
    · exact two_pi_I_ne_zero hz
    · have h3 : ((3 * k : ℤ) : ℂ) = 1 := by
        push_cast
        linear_combination (-1 : ℂ) * hz
      have h3k : (3 * k : ℤ) = 1 := by exact_mod_cast h3
      omega
  have hfact : (Complex.exp (2 * Real.pi * Complex.I / 3) - 1)
      * (1 + Complex.exp (2 * Real.pi * Complex.I / 3)
        + Complex.exp (2 * Real.pi * Complex.I / 3) ^ 2)
      = Complex.exp (2 * Real.pi * Complex.I / 3) ^ 3 - 1 := by ring
  rw [hw3, sub_self] at hfact
  rcases mul_eq_zero.1 hfact with h | h
  · exact absurd (by linear_combination h) hw1
  · exact h

theorem sum_exp_third (m : ℕ) (hm : m < 3) :
    ∑ u ∈ Finset.range 3,
      Complex.exp ((2 * Real.pi * Complex.I) * ((u : ℂ) * (m : ℂ) / 3))
      = if m = 0 then 3 else 0 := by
  interval_cases m
  · simp [Finset.sum_range_succ]
  · rw [if_neg (by omega)]
    have hterm : ∀ u : ℕ,
        Complex.exp ((2 * Real.pi * Complex.I) * ((u : ℂ) * ((1 : ℕ) : ℂ) / 3))
        = Complex.exp (2 * Real.pi * Complex.I / 3) ^ u := by
      intro u
      rw [← Complex.exp_nat_mul]
      congr 1
      push_cast
      ring
    rw [Finset.sum_congr rfl fun u _ => hterm u]
    simp only [Finset.sum_range_succ, Finset.sum_range_zero, zero_add, pow_zero, pow_one]
    linear_combination third_root_sum
  · rw [if_neg (by omega)]
    have hterm : ∀ u : ℕ,
        Complex.exp ((2 * Real.pi * Complex.I) * ((u : ℂ) * ((2 : ℕ) : ℂ) / 3))
        = Complex.exp (2 * Real.pi * Complex.I / 3) ^ (2 * u) := by
      intro u
      rw [← Complex.exp_nat_mul]
      congr 1
      push_cast
      ring
    rw [Finset.sum_congr rfl fun u _ => hterm u]
    simp only [Finset.sum_range_succ, Finset.sum_range_zero, zero_add, pow_zero]
    have hw3 : Complex.exp (2 * Real.pi * Complex.I / 3) ^ 3 = 1 := by
      rw [← Complex.exp_nat_mul]
      have harg : ((3 : ℕ) : ℂ) * (2 * Real.pi * Complex.I / 3)
          = 2 * Real.pi * Complex.I := by
        push_cast
        field_simp
      rw [harg, Complex.exp_two_pi_mul_I]
    have h4 : Complex.exp (2 * Real.pi * Complex.I / 3) ^ (2 * 2)
        = Complex.exp (2 * Real.pi * Complex.I / 3) := by
      have : Complex.exp (2 * Real.pi * Complex.I / 3) ^ (2 * 2)
          = Complex.exp (2 * Real.pi * Complex.I / 3) ^ 3
            * Complex.exp (2 * Real.pi * Complex.I / 3) := by ring
      rw [this, hw3, one_mul]
    rw [h4]
    have h21 : Complex.exp (2 * Real.pi * Complex.I / 3) ^ (2 * 1)
        = Complex.exp (2 * Real.pi * Complex.I / 3) ^ 2 := by ring
    rw [h21]
    linear_combination third_root_sum

theorem corrC_delta (m n : ℕ) :
    corrC deltaImg deltaImg m n
      = (1 / 9) * (1 / (1 + (EPS : ℂ)))
        * (∑ u ∈ Finset.range 3,
            Complex.exp ((2 * Real.pi * Complex.I) * ((u : ℂ) * (m : ℂ) / 3)))
        * (∑ v ∈ Finset.range 3,
            Complex.exp ((2 * Real.pi * Complex.I) * ((v : ℂ) * (n : ℂ) / 3))) := by
  have h : corrC deltaImg deltaImg m n
      = 1 / (((deltaImg.H + deltaImg.H - 1) * (deltaImg.W + deltaImg.W - 1) : ℕ) : ℂ)
        * ∑ u ∈ Finset.range (deltaImg.H + deltaImg.H - 1),
            ∑ v ∈ Finset.range (deltaImg.W + deltaImg.W - 1),
              crossPowerNorm deltaImg deltaImg u v *
                Complex.exp ((2 * Real.pi * Complex.I) *
                  ((u : ℂ) * (m : ℂ) / ((deltaImg.H : ℂ) + (deltaImg.H : ℂ) - 1)
                    + (v : ℂ) * (n : ℂ) / ((deltaImg.W : ℂ) + (deltaImg.W : ℂ) - 1))) := rfl
  rw [h]
  rw [show (deltaImg.H + deltaImg.H - 1 : ℕ) = 3 from rfl,
    show (deltaImg.W + deltaImg.W - 1 : ℕ) = 3 from rfl]
  rw [show ((deltaImg.H : ℕ) : ℂ) = 2 by norm_num [show deltaImg.H = 2 from rfl],
    show ((deltaImg.W : ℕ) : ℂ) = 2 by norm_num [show deltaImg.W = 2 from rfl]]
  rw [show ((2 : ℂ) + 2 - 1) = 3 by norm_num]
  rw [show ((3 * 3 : ℕ) : ℂ) = (9 : ℂ) by norm_num]
  have hterm : ∀ u v : ℕ,
      crossPowerNorm deltaImg deltaImg u v *
        Complex.exp ((2 * Real.pi * Complex.I) *
          ((u : ℂ) * (m : ℂ) / 3 + (v : ℂ) * (n : ℂ) / 3))
      = (1 / (1 + (EPS : ℂ)))
        * (Complex.exp ((2 * Real.pi * Complex.I) * ((u : ℂ) * (m : ℂ) / 3))
          * Complex.exp ((2 * Real.pi * Complex.I) * ((v : ℂ) * (n : ℂ) / 3))) := by
    intro u v
    rw [crossPowerNorm_delta, ← Complex.exp_add]
    congr 2
    ring
  rw [Finset.sum_congr rfl fun u _ => Finset.sum_congr rfl fun v _ => hterm u v]
  have hpull : ∑ u ∈ Finset.range 3, ∑ v ∈ Finset.range 3,
      (1 / (1 + (EPS : ℂ)))
        * (Complex.exp ((2 * Real.pi * Complex.I) * ((u : ℂ) * (m : ℂ) / 3))
          * Complex.exp ((2 * Real.pi * Complex.I) * ((v : ℂ) * (n : ℂ) / 3)))
      = (1 / (1 + (EPS : ℂ)))
        * ∑ u ∈ Finset.range 3, ∑ v ∈ Finset.range 3,
            Complex.exp ((2 * Real.pi * Complex.I) * ((u : ℂ) * (m : ℂ) / 3))
              * Complex.exp ((2 * Real.pi * Complex.I) * ((v : ℂ) * (n : ℂ) / 3)) := by
    rw [Finset.mul_sum]
    exact Finset.sum_congr rfl fun u _ => (Finset.mul_sum _ _ _).symm
  rw [hpull, ← Finset.sum_mul_sum]
  ring

theorem eps_pos : 0 < EPS := by norm_num [EPS]

theorem corrAbs_delta (m n : ℕ) (hm : m < 3) (hn : n < 3) :
    corrAbs deltaImg deltaImg m n = if m = 0 ∧ n = 0 then 1 / (1 + EPS) else 0 := by
  unfold corrAbs
  rw [corrC_delta, sum_exp_third m hm, sum_exp_third n hn]
  by_cases hm0 : m = 0
  · by_cases hn0 : n = 0
    · rw [if_pos hm0, if_pos hn0, if_pos (And.intro hm0 hn0)]
      have hval : (1 / 9 : ℂ) * (1 / (1 + (EPS : ℂ))) * 3 * 3 = 1 / (1 + (EPS : ℂ)) := by
        ring
      rw [hval]
      have hcast : (1 : ℂ) / (1 + (EPS : ℂ)) = (((1 / (1 + EPS) : ℝ)) : ℂ) := by
        push_cast
        ring
      rw [hcast, Complex.abs_ofReal]
      have hpos : (0 : ℝ) < 1 / (1 + EPS) := by
        have := eps_pos
        positivity
      exact abs_of_pos hpos
    · rw [if_pos hm0, if_neg hn0,
        if_neg (show ¬(m = 0 ∧ n = 0) from fun hc => hn0 hc.2)]
      simp
  · rw [if_neg hm0, if_neg (show ¬(m = 0 ∧ n = 0) from fun hc => hm0 hc.1)]
    simp

open Classical in
theorem argmaxFlat_eq_zero (N : ℕ) (f : ℕ → ℝ) (hN : 0 < N)
    (hmax : ∀ j < N, f j ≤ f 0) : argmaxFlat N f = 0 := by
  unfold argmaxFlat
  have h0 : 0 ∈ (Finset.range N).filter fun i => ∀ j ∈ Finset.range N, f j ≤ f i := by
    rw [Finset.mem_filter]
    exact ⟨Finset.mem_range.2 hN, fun j hj => hmax j (Finset.mem_range.1 hj)⟩
  rw [dif_pos ⟨0, h0⟩]
  exact Nat.le_zero.1 (Finset.min'_le _ 0 h0)

theorem peakFlat_delta : peakFlat deltaImg deltaImg = 0 := by
  have h : peakFlat deltaImg deltaImg
      = argmaxFlat 9 (fun i => corrAbs deltaImg deltaImg (i / 3) (i % 3)) := rfl
  rw [h]
  apply argmaxFlat_eq_zero
  · omega
  · intro j hj
    show corrAbs deltaImg deltaImg (j / 3) (j % 3)
      ≤ corrAbs deltaImg deltaImg (0 / 3) (0 % 3)
    have h03 : (0 : ℕ) / 3 = 0 := by omega
    have h03b : (0 : ℕ) % 3 = 0 := by omega
    rw [h03, h03b, corrAbs_delta (j / 3) (j % 3) (by omega) (by omega),
      corrAbs_delta 0 0 (by omega) (by omega),
      if_pos (show (0 : ℕ) = 0 ∧ (0 : ℕ) = 0 from ⟨rfl, rfl⟩)]
    by_cases hc : j / 3 = 0 ∧ j % 3 = 0
    · rw [if_pos hc]
    · rw [if_neg hc]
      have := eps_pos
      positivity

theorem peakY_delta : peakY deltaImg deltaImg = 0 := by
  have h : peakY deltaImg deltaImg = peakFlat deltaImg deltaImg / 3 := rfl
  rw [h, peakFlat_delta]

theorem peakX_delta : peakX deltaImg deltaImg = 0 := by
  have h : peakX deltaImg deltaImg = peakFlat deltaImg deltaImg % 3 := rfl
  rw [h, peakFlat_delta]

/-- C1 (code bug).  `phase_correlation(A, A)` on the identical 2x2 delta
image pair returns `(-1, -1)` — the raw circular-correlation peak index
minus `(HB - 1, WB - 1)` — not the zero shift `(0, 0)` promised by the
spec and by the function's own docstring: the subtraction of
`(HB - 1, WB - 1)` is applied without first rotating the circular
correlation, so the returned value is wrong for every image pair with
`HB > 1` or `WB > 1`. -/
theorem phase_correlation_identical_delta :
    phase_correlation deltaImg deltaImg = (-1, -1) ∧
    phase_correlation deltaImg deltaImg ≠ (0, 0) := by
  have hy := peakY_delta
  have hx := peakX_delta
  have hdy : dyFrac deltaImg deltaImg = 0 :=
    dyFrac_eq_zero_of_boundary deltaImg deltaImg (Or.inl hy)
  have hdx : dxFrac deltaImg deltaImg = 0 :=
    dxFrac_eq_zero_of_boundary deltaImg deltaImg (Or.inl hx)
  have heq : phase_correlation deltaImg deltaImg = (-1, -1) := by
    rw [phase_correlation, hy, hx, hdy, hdx]
    norm_num [deltaImg]
  refine ⟨heq, ?_⟩
  rw [heq]
  intro hcontra
  have := congrArg Prod.fst hcontra
  norm_num at this

end Reg
